import Mathlib

/-!
# Verification of the `adiff` symbolic differentiation engine

Shallow embedding of the expression representation, evaluator, symbolic
differentiator, simplifier and gradient-descent training loop of the
repository (`main.go`), together with proofs settling the frozen claims.

Modelling conventions:
* Go `float64` constants are embedded as `ℚ` (exact arithmetic; the spec
  only demands agreement "within floating-point tolerance", and every
  comparison the code performs on constants, `== 0` / `== 1`, is exact).
* evaluation points (`x []float64`) and the network state are `List ℝ`;
  `Variable.Val` reads component `i` (`x[int(v)]`), embedded as `List.getD`
  with default 0 (the Go code would panic on an out-of-range read; claims
  are only about in-range points).
* `math.Pow`, `math.Log`, `math.Tanh` become `Real.rpow`, `Real.log`,
  `Real.tanh`.  The IEEE special values (`NaN`, `±Inf`) have no `ℝ`
  counterpart; Mathlib's junk values (`Real.log` of a nonpositive number,
  `Real.rpow` of a negative base) stand in for them.  The predicates
  `GoDefined`/`SDefined` below single out the points where no special
  value arises, i.e. where the `ℝ` semantics coincides with the Go one.
* the `Branch` variant stores a Go closure `func(x []float64) Func`;
  it is embedded as a function `List ℝ → Func`.
-/

/-- The expression interface `Func` of `main.go` as a closed variant type.
One constructor per concrete Go type implementing the interface:
`Variable`, `Constant`, `Sum`, `Mult`, `Pow`, `Ln`, `Tanh`, `Branch`. -/
inductive Func : Type where
  | Variable : ℕ → Func
  | Constant : ℚ → Func
  | Sum : List Func → Func
  | Mult : List Func → Func
  | Pow : Func → Func → Func
  | Ln : Func → Func
  | Tanh : Func → Func
  | Branch : (List ℝ → Func) → Func

namespace Func

/-- `Val`: the evaluator.  `Sum.Val` is the running total of the children,
`Mult.Val` the running product with the source's early return `0` as soon
as a factor evaluates to `0` (`if fn.Val(x) == 0 { return 0 }`),
`Pow.Val` is `math.Pow(base, exponent)`, `Ln.Val` is `math.Log`,
`Tanh.Val` is `math.Tanh`, and `Branch.Val` evaluates the closure at the
point and then evaluates the selected expression at that same point
(`b(x).Val(x)`). -/
noncomputable def Val (x : List ℝ) : Func → ℝ
  | .Variable i => x.getD i 0
  | .Constant c => (c : ℝ)
  | .Sum l => goSum l
  | .Mult l => goMult l
  | .Pow b e => (Val x b) ^ (Val x e)
  | .Ln f => Real.log (Val x f)
  | .Tanh f => Real.tanh (Val x f)
  | .Branch b => Val x (b x)
where
  goSum : List Func → ℝ
    | [] => 0
    | f :: fs => Val x f + goSum fs
  goMult : List Func → ℝ
    | [] => 1
    | f :: fs => open Classical in if Val x f = 0 then 0 else Val x f * goMult fs

/-- `Negative(f) = Mult{Constant(-1), f}` from the source. -/
def Negative (f : Func) : Func := .Mult [.Constant (-1), f]

/-- `Inverse(f) = &Pow{f, Constant(-1)}` from the source. -/
def Inverse (f : Func) : Func := .Pow f (.Constant (-1))

/-- `Abs(f)`: the `Branch` closure from the source, selecting `f` where
`f.Val(x) >= 0` and `Negative(f)` elsewhere. -/
noncomputable def Abs (f : Func) : Func :=
  .Branch (fun x => open Classical in if 0 ≤ Val x f then f else Negative f)

/-- `Partial`: the symbolic differentiator, rule for rule from the source.
`Mult.Partial` splits off the head factor and recurses on the tail
(`Sum{Mult{m0', m1..n}, Mult{m0, (m1..n)'}}`, and `Constant(0)` for an
empty factor list); `Pow.Partial` is the generalized logarithmic rule
`p * (e' * Ln(Abs(b)) + b' * Inverse(b) * e)`; `Branch.Partial` wraps a
new closure differentiating whichever branch the predicate selects. -/
noncomputable def Partial (v : ℕ) : Func → Func
  | .Variable i => if i = v then .Constant 1 else .Constant 0
  | .Constant _ => .Constant 0
  | .Sum l => .Sum (goSum l)
  | .Mult l => goMult l
  | .Pow b e => .Mult [.Pow b e, .Sum [.Mult [Partial v e, .Ln (Abs b)],
      .Mult [Partial v b, Inverse b, e]]]
  | .Ln f => .Mult [Partial v f, Inverse f]
  | .Tanh f => .Mult [Partial v f, .Sum [.Constant 1,
      Negative (.Pow (.Tanh f) (.Constant 2))]]
  | .Branch b => .Branch (fun x => Partial v (b x))
where
  goSum : List Func → List Func
    | [] => []
    | f :: fs => Partial v f :: goSum fs
  goMult : List Func → Func
    | [] => .Constant 0
    | f :: fs => .Sum [.Mult [Partial v f, .Mult fs], .Mult [f, goMult fs]]

/-- The domain condition under which Go's `math.Pow(x, y)` returns an
ordinary finite value and agrees with `Real.rpow`: positive base; negative
base with integer exponent; or zero base with nonnegative exponent. -/
def PowDom (x y : ℝ) : Prop :=
  0 < x ∨ (x < 0 ∧ ∃ n : ℤ, y = n) ∨ (x = 0 ∧ 0 ≤ y)

/-- Strong definedness: every subexpression evaluates inside its real
domain (no IEEE special value anywhere, not even in a product factor that
the evaluator's zero short-circuit would skip). -/
def SDefined (x : List ℝ) : Func → Prop
  | .Variable _ => True
  | .Constant _ => True
  | .Sum l => goList l
  | .Mult l => goList l
  | .Pow b e => SDefined x b ∧ SDefined x e ∧ PowDom (Val x b) (Val x e)
  | .Ln f => SDefined x f ∧ 0 < Val x f
  | .Tanh f => SDefined x f
  | .Branch b => SDefined x (b x)
where
  goList : List Func → Prop
    | [] => True
    | f :: fs => SDefined x f ∧ goList fs

/-- Go definedness: the evaluation path actually taken by `Val` meets no
IEEE special value.  Differs from `SDefined` only at `Mult`, where the
source's early `return 0` stops evaluation at the first zero-valued
factor, so later factors are unconstrained. -/
def GoDefined (x : List ℝ) : Func → Prop
  | .Variable _ => True
  | .Constant _ => True
  | .Sum l => goSumD l
  | .Mult l => goMultD l
  | .Pow b e => GoDefined x b ∧ GoDefined x e ∧ PowDom (Val x b) (Val x e)
  | .Ln f => GoDefined x f ∧ 0 < Val x f
  | .Tanh f => GoDefined x f
  | .Branch b => GoDefined x (b x)
where
  goSumD : List Func → Prop
    | [] => True
    | f :: fs => GoDefined x f ∧ goSumD fs
  goMultD : List Func → Prop
    | [] => True
    | f :: fs => GoDefined x f ∧ (Val x f = 0 ∨ goMultD fs)

/-- The type test `c, ok := f.(Constant); ok && float64(c) == 0`. -/
@[simp] def isC0 : Func → Prop
  | .Constant c => c = 0
  | _ => False

/-- The type test `c, ok := f.(Constant); ok && float64(c) == 1`. -/
@[simp] def isC1 : Func → Prop
  | .Constant c => c = 1
  | _ => False

instance : ∀ f, Decidable (isC0 f)
  | .Variable _ => isFalse (fun h => h)
  | .Constant c => inferInstanceAs (Decidable (c = 0))
  | .Sum _ => isFalse (fun h => h)
  | .Mult _ => isFalse (fun h => h)
  | .Pow _ _ => isFalse (fun h => h)
  | .Ln _ => isFalse (fun h => h)
  | .Tanh _ => isFalse (fun h => h)
  | .Branch _ => isFalse (fun h => h)

instance : ∀ f, Decidable (isC1 f)
  | .Variable _ => isFalse (fun h => h)
  | .Constant c => inferInstanceAs (Decidable (c = 1))
  | .Sum _ => isFalse (fun h => h)
  | .Mult _ => isFalse (fun h => h)
  | .Pow _ _ => isFalse (fun h => h)
  | .Ln _ => isFalse (fun h => h)
  | .Tanh _ => isFalse (fun h => h)
  | .Branch _ => isFalse (fun h => h)

/-!
The simplifier.  The Go recursion is not structural (the second pass of
`Sum.Simplify` re-simplifies first-pass results, and `Mult.Simplify`
re-simplifies the factors of a flattened nested product), so the
embedding carries a fuel parameter and returns `none` when fuel runs out:
`simplifyF n e = some r` states that the source's `e.Simplify()`
terminates within recursion depth `n` with result `r`.  The loop bodies
become list recursions parameterized by the one-level-down simplifier
`S`.
-/

/-- First loop of `Sum.Simplify`: simplify every term, skip those that
simplified to `Constant(0)`. -/
def sumNonzero (S : Func → Option Func) : List Func → Option (List Func)
  | [] => some []
  | f :: fs => (S f).bind fun simple =>
      if isC0 simple then sumNonzero S fs
      else (sumNonzero S fs).map (fun l => simple :: l)

/-- Second loop of `Sum.Simplify`: simplify every term again, folding all
constant results into a single running total and keeping the rest in
order. -/
def sumMerge (S : Func → Option Func) : List Func → Option (List Func × ℚ)
  | [] => some ([], 0)
  | f :: fs => (S f).bind fun simple =>
      match simple with
      | .Constant c => (sumMerge S fs).map fun p => (p.1, c + p.2)
      | s => (sumMerge S fs).map fun p => (s :: p.1, p.2)

/-- `mapSimp S l`: simplify each element (the `in.Simplify()` calls when a
nested `Mult` factor is flattened into its parent). -/
def mapSimp (S : Func → Option Func) : List Func → Option (List Func)
  | [] => some []
  | f :: fs => (S f).bind fun r => (mapSimp S fs).map (fun l => r :: l)

/-- First loop of `Mult.Simplify`: simplify every factor; an entire-product
early return `Constant(0)` on a zero constant factor is signalled by the
inner `none`; factors equal to `Constant(1)` are dropped; a nested `Mult`
is flattened, re-simplifying its elements. -/
def multGather (S : Func → Option Func) : List Func → Option (Option (List Func))
  | [] => some (some [])
  | f :: fs => (S f).bind fun simple =>
      if isC0 simple then some none
      else if isC1 simple then multGather S fs
      else match simple with
        | .Mult inner => (mapSimp S inner).bind fun inner2 =>
            (multGather S fs).map (Option.map (fun l => inner2 ++ l))
        | s => (multGather S fs).map (Option.map (fun l => s :: l))

/-- Lookup in the `dups` table (`dups[v]`, keyed by the base variable;
only the exponent needs storing since the base is the key). -/
def lookupDup : List (ℕ × Func) → ℕ → Option Func
  | [], _ => none
  | (w, e) :: rest, v => if w = v then some e else lookupDup rest v

/-- In-place update of the `dups` table entry for `v`. -/
def setDup : List (ℕ × Func) → ℕ → Func → List (ℕ × Func)
  | [], _, _ => []
  | (w, e) :: rest, v, ne => if w = v then (w, ne) :: rest else (w, e) :: setDup rest v ne

/-- Second loop of `Mult.Simplify`, threading the accumulated non-merged
factors `simpler`, the constant product `constTot` and the `dups` table:
a `Pow` with a variable base (and a bare `Variable`, treated as
`Pow{v, Constant(1)}`) is merged into `dups` with the combined exponent
`Sum{old, new}.Simplify()`; constants are folded into `constTot`;
everything else is appended to `simpler`.  The Go `dups` is a hash map
with unspecified iteration order; the embedding fixes first-insertion
order. -/
def multMerge (S : Func → Option Func) :
    List Func → List Func → ℚ → List (ℕ × Func) → Option (List Func × ℚ × List (ℕ × Func))
  | [], simpler, tot, dups => some (simpler, tot, dups)
  | f :: fs, simpler, tot, dups =>
    match f with
    | .Pow (.Variable v) exp =>
        match lookupDup dups v with
        | some old => (S (.Sum [old, exp])).bind fun ne =>
            multMerge S fs simpler tot (setDup dups v ne)
        | none => multMerge S fs simpler tot (dups ++ [(v, exp)])
    | .Variable v =>
        match lookupDup dups v with
        | some old => (S (.Sum [old, .Constant 1])).bind fun ne =>
            multMerge S fs simpler tot (setDup dups v ne)
        | none => multMerge S fs simpler tot (dups ++ [(v, .Constant 1)])
    | .Constant c => multMerge S fs simpler (tot * c) dups
    | g => multMerge S fs (simpler ++ [g]) tot dups

/-- Rebuild and simplify the merged `Pow` expressions of the `dups`
table (`f.Simplify()` on each `&Pow{Variable(v), exp}`). -/
def simpDups (S : Func → Option Func) : List (ℕ × Func) → Option (List Func)
  | [] => some []
  | (v, e) :: rest => (S (.Pow (.Variable v) e)).bind fun r =>
      (simpDups S rest).map (fun l => r :: l)

/-- The simplifier (`Simplify` methods of every variant), by fuel.
`Variable`, `Constant` and `Branch` return themselves; `Ln` and `Tanh`
rebuild around the simplified inner expression; `Pow` simplifies both
children and collapses a constant-0 exponent to `Constant(1)` and a
constant-1 exponent to the base; `Sum` and `Mult` run the loops above,
append the merged constant (for `Mult` unconditionally, for `Sum` only
when nonzero) and the rebuilt `dups` entries, and collapse an empty
result to the identity element and a singleton to its element. -/
def simplifyF : ℕ → Func → Option Func
  | 0, _ => none
  | n+1, e =>
    match e with
    | .Variable i => some (.Variable i)
    | .Constant c => some (.Constant c)
    | .Branch b => some (.Branch b)
    | .Ln f => (simplifyF n f).map .Ln
    | .Tanh f => (simplifyF n f).map .Tanh
    | .Pow b e => (simplifyF n b).bind fun base => (simplifyF n e).bind fun exp =>
        if isC0 exp then some (.Constant 1)
        else if isC1 exp then some base
        else some (.Pow base exp)
    | .Sum s => (sumNonzero (simplifyF n) s).bind fun nonzero =>
        (sumMerge (simplifyF n) nonzero).map fun (p : List Func × ℚ) =>
          let simpler : List Func := if p.2 = 0 then p.1 else p.1 ++ [.Constant p.2]
          match simpler with
          | [] => .Constant 0
          | [x] => x
          | l => .Sum l
    | .Mult m => (multGather (simplifyF n) m).bind fun g =>
        match g with
        | none => some (.Constant 0)
        | some simplified =>
          (multMerge (simplifyF n) simplified [] 1 []).bind fun t =>
          (simpDups (simplifyF n) t.2.2).map fun dupsimp =>
            match t.1 ++ [.Constant t.2.1] ++ dupsimp with
            | [] => .Constant 1
            | [x] => x
            | l => .Mult l

/-- A concrete stand-in for `fmt`'s `%v` float formatting of a constant:
integral values print as plain integers (as Go prints `float64(5)` as
`"5"`); non-integral values print as `num/den` where Go would print a
decimal.  No claim depends on the digits of a non-integral constant. -/
def ratStr (q : ℚ) : String :=
  if q.den = 1 then toString q.num else toString q.num ++ "/" ++ toString q.den

/-- Join the renders of a list of expressions with separator `sep`
(the `str += sep + f.String()` loops of `Sum.String`/`Mult.String`). -/
def joinStrs (R : Func → Option String) (sep : String) : List Func → Option String
  | [] => some ""
  | [f] => R f
  | f :: fs => (R f).bind fun s => (joinStrs R sep fs).map fun rest => s ++ sep ++ rest

/-- The `String()` methods, by fuel.  `Sum.String` and `Mult.String`
first call `Simplify()` and render the simplified expression (singleton
lists unparenthesized, longer lists joined with the infix operator inside
parentheses; an empty simplified list would panic in Go at `sum[0]`,
embedded as `none`).  Go formats a `Constant` with `fmt`'s `%v` float
formatting, abstracted here as a formatter parameter `ρ : ℚ → String`;
no claim depends on the digits a particular constant prints as. -/
def strF (ρ : ℚ → String) : ℕ → Func → Option String
  | 0, _ => none
  | n+1, e =>
    match e with
    | .Variable i => some ("v" ++ toString i)
    | .Constant c => some (ρ c)
    | .Branch _ => some "Branch(???)"
    | .Ln f => (strF ρ n f).map (fun s => "ln(" ++ s ++ ")")
    | .Tanh f => (strF ρ n f).map (fun s => "tanh(" ++ s ++ ")")
    | .Pow b e => (strF ρ n b).bind fun sb => (strF ρ n e).map fun se =>
        "(" ++ sb ++ "^" ++ se ++ ")"
    | .Sum s => (simplifyF n (.Sum s)).bind fun simple =>
        match simple with
        | .Sum [] => none
        | .Sum l => (joinStrs (strF ρ n) " + " l).map fun j =>
            if l.length = 1 then j else "(" ++ j ++ ")"
        | other => strF ρ n other
    | .Mult m => (simplifyF n (.Mult m)).bind fun simple =>
        match simple with
        | .Mult [] => none
        | .Mult l => (joinStrs (strF ρ n) " * " l).map fun j =>
            if l.length = 1 then j else "(" ++ j ++ ")"
        | other => strF ρ n other

end Func

/-- The activation of a `Neuron`: `&Tanh{}` for hidden neurons,
`&Passthrough{}` for outputs. -/
inductive ActKind : Type where
  | tanh : ActKind
  | passthrough : ActKind

/-- `Neuron`: ordered input expressions, one weight variable per input,
and an activation kind.  (The Go back-reference to the owning network is
only used to allocate fresh weight indices and is not part of the state
the claims are about.) -/
structure Neuron : Type where
  Inputs : List Func
  Weights : List ℕ
  Activation : ActKind

/-- The `Network` struct: next-free variable index, declared input
variables, trainable weight variables, cost expression, live state
vector, output neurons. -/
structure Network : Type where
  nextVarIndex : ℕ
  Vars : List ℕ
  Weights : List ℕ
  CostFunc : Func
  State : List ℝ
  Outputs : List Neuron

namespace Network

/-- `NVars()` returns `nextVarIndex`. -/
def NVars (n : Network) : ℕ := n.nextVarIndex

/-- The weight-initialization loop of `Train`: `n.State[int(w)] = 1` for
every weight (a write out of the state vector's range panics in Go,
embedded as `none`). -/
def setWeights : List ℝ → List ℕ → Option (List ℝ)
  | state, [] => some state
  | state, w :: ws => if w < state.length then setWeights (state.set w 1) ws else none

/-- The input-writing loop of `Train`:
`for i, index := range n.Vars { n.State[int(index)] = pos[i] }`.
Reading `pos[i]` past the end of the training point, or writing past the
end of the state vector, panics in Go, embedded as `none`. -/
def writeVars : List ℝ → List ℕ → List ℝ → Option (List ℝ)
  | state, [], _ => some state
  | _, _ :: _, [] => none
  | state, v :: vs, p :: ps =>
      if v < state.length then writeVars (state.set v p) vs ps else none

/-- The delta-weight loop of `Train`: for each weight, look up the cached
simplified gradient (computing `CostFunc.Partial(w).Simplify()` on a
cache miss and recording it), then `dweight[i] = -learnRate *
partialcost.Val(n.State)` against the state as passed in.  Returns the
delta list and the updated cache. -/
noncomputable def computeDeltas (fuel : ℕ) (cost : Func) (lr : ℝ) (state : List ℝ) :
    List ℕ → List (ℕ × Func) → Option (List ℝ × List (ℕ × Func))
  | [], derivs => some ([], derivs)
  | w :: ws, derivs =>
      (match Func.lookupDup derivs w with
       | some g => some (g, derivs)
       | none => (Func.simplifyF fuel (Func.Partial w cost)).map
           fun g => (g, derivs ++ [(w, g)])).bind
      fun (p : Func × List (ℕ × Func)) =>
      (computeDeltas fuel cost lr state ws p.2).map
      fun (q : List ℝ × List (ℕ × Func)) => ((-lr * Func.Val state p.1) :: q.1, q.2)

/-- The weight-update loop of `Train`:
`for i, w := range n.Weights { n.State[int(w)] += dweight[i] }`. -/
def applyDeltas : List ℝ → List ℕ → List ℝ → Option (List ℝ)
  | state, [], _ => some state
  | _, _ :: _, [] => none
  | state, w :: ws, d :: ds =>
      if h : w < state.length then
        applyDeltas (state.set w (state.get ⟨w, h⟩ + d)) ws ds
      else none

/-- One iteration of `Train`'s training-point loop: write the point's
values into the declared input variables, then compute every weight's
delta against that state, then apply all deltas.  The diagnostic
`fmt.Printf` of the weights is I/O-free in the embedding except that its
`n.State[int(n.Weights[0])]` read panics when the weight list is empty,
embedded as `none`. -/
noncomputable def trainPoint (fuel : ℕ) (cost : Func) (lr : ℝ) (vars weights : List ℕ)
    (state : List ℝ) (derivs : List (ℕ × Func)) (pos : List ℝ) :
    Option (List ℝ × List (ℕ × Func)) :=
  (writeVars state vars pos).bind fun state1 =>
  if weights.isEmpty then none else
  (computeDeltas fuel cost lr state1 weights derivs).bind fun p =>
  (applyDeltas state1 weights p.1).map fun state2 => (state2, p.2)

/-- `Train`'s loop over the training points, threading the state vector
and the gradient cache. -/
noncomputable def trainLoop (fuel : ℕ) (cost : Func) (lr : ℝ) (vars weights : List ℕ) :
    List ℝ → List (ℕ × Func) → List (List ℝ) → Option (List ℝ)
  | state, _, [] => some state
  | state, derivs, pos :: rest =>
      (trainPoint fuel cost lr vars weights state derivs pos).bind fun p =>
      trainLoop fuel cost lr vars weights p.1 p.2 rest

/-- `Train(learnRate, varData)`: if the state vector is unallocated
(`len(n.State) == 0`), allocate it at length `NVars()` and set every
weight slot to 1; then run the training loop with an initially empty
gradient cache; finally store the resulting state vector back into the
network.  `fuel` bounds the recursion depth of the embedded `Simplify`
calls. -/
noncomputable def Train (fuel : ℕ) (n : Network) (learnRate : ℝ)
    (varData : List (List ℝ)) : Option Network :=
  (if n.State.length = 0
   then setWeights (List.replicate n.NVars (0 : ℝ)) n.Weights
   else some n.State).bind fun state0 =>
  (trainLoop fuel n.CostFunc learnRate n.Vars n.Weights state0 [] varData).map
  fun stateF => { n with State := stateF }

end Network

/-- Modelled from the spec: the synchronous per-point weight update that
`train` is claimed to perform — "compute each weight's delta as
`-learningRate * value(cachedGradient, state)`; apply all weight deltas
simultaneously after all are computed for that point", every delta
evaluated against the same pre-update state. -/
noncomputable def syncUpdate (lr : ℝ) (grad : ℕ → Func) (weights : List ℕ)
    (state1 : List ℝ) : List ℝ :=
  state1.mapIdx fun idx v =>
    if idx ∈ weights then v + (-lr * Func.Val state1 (grad idx)) else v

/-- The simplified symbolic gradient of the cost with respect to weight
`w` — what `Train` computes and caches on a cache miss
(`n.CostFunc.Partial(w).Simplify()`). -/
noncomputable def gradF (fuel : ℕ) (cost : Func) (w : ℕ) : Func :=
  (Func.simplifyF fuel (Func.Partial w cost)).getD (.Constant 0)

/-- Invariant of `Train`'s gradient cache: every cached entry is the
simplified partial of the cost with respect to its key. -/
def cacheOK (fuel : ℕ) (cost : Func) (derivs : List (ℕ × Func)) : Prop :=
  ∀ w g, Func.lookupDup derivs w = some g →
    Func.simplifyF fuel (Func.Partial w cost) = some g

namespace Func

/-- All members of a list are strongly defined at `x`. -/
def SDall (x : List ℝ) (l : List Func) : Prop := ∀ f ∈ l, SDefined x f

/-- Sum of the values of a list of expressions. -/
noncomputable def sumv (x : List ℝ) (l : List Func) : ℝ := (l.map (Val x)).sum

/-- Product of the values of a list of expressions. -/
noncomputable def prodv (x : List ℝ) (l : List Func) : ℝ := (l.map (Val x)).prod

/-- Soundness of a simplifier stage at point `x`: whenever it succeeds on
a strongly defined expression, the result is strongly defined and has the
same value. -/
def SOK (S : Func → Option Func) (x : List ℝ) : Prop :=
  ∀ f r, S f = some r → SDefined x f → SDefined x r ∧ Val x r = Val x f

/-- Invariant of the `dups` table at point `x`: every stored exponent is
strongly defined and within the power domain of its base variable's
value. -/
def dupOK (x : List ℝ) (dups : List (ℕ × Func)) : Prop :=
  ∀ p ∈ dups, SDefined x p.2 ∧ PowDom (x.getD p.1 0) (Val x p.2)

/-- The product of the values of the merged `Pow` factors held in the
`dups` table. -/
noncomputable def dupProd (x : List ℝ) (dups : List (ℕ × Func)) : ℝ :=
  (dups.map (fun p => (x.getD p.1 0) ^ (Val x p.2))).prod

end Func

/-! ## Evaluator lemmas -/

namespace Func

lemma goSum_eq (x : List ℝ) (l : List Func) :
    Val.goSum x l = (l.map (Val x)).sum := by
  induction l with
  | nil => simp [Val.goSum]
  | cons f fs ih => simp [Val.goSum, ih]

lemma goMult_eq (x : List ℝ) (l : List Func) :
    Val.goMult x l = (l.map (Val x)).prod := by
  induction l with
  | nil => simp [Val.goMult]
  | cons f fs ih =>
    simp only [Val.goMult, List.map_cons, List.prod_cons, ih]
    split
    · rename_i h; rw [h, zero_mul]
    · rfl

/-- `Sum.Val` is the sum of the children's values. -/
lemma val_Sum (x : List ℝ) (l : List Func) :
    Val x (.Sum l) = (l.map (Val x)).sum := by
  rw [Val, goSum_eq]

/-- `Mult.Val` equals the plain product of the children's values: the
early `return 0` only skips factors once a factor evaluated to exactly
0, and in `ℝ` a product with a zero factor is 0. -/
lemma val_Mult (x : List ℝ) (l : List Func) :
    Val x (.Mult l) = (l.map (Val x)).prod := by
  rw [Val, goMult_eq]

lemma sdef_goList (x : List ℝ) (l : List Func) :
    SDefined.goList x l ↔ ∀ f ∈ l, SDefined x f := by
  induction l with
  | nil => simp [SDefined.goList]
  | cons f fs ih => simp [SDefined.goList, ih]

lemma sdef_Sum (x : List ℝ) (l : List Func) :
    SDefined x (.Sum l) ↔ ∀ f ∈ l, SDefined x f := by
  rw [SDefined, sdef_goList]

lemma sdef_Mult (x : List ℝ) (l : List Func) :
    SDefined x (.Mult l) ↔ ∀ f ∈ l, SDefined x f := by
  rw [SDefined, sdef_goList]

/-! ## `PowDom` algebra -/

lemma powDom_one (x : ℝ) : PowDom x 1 := by
  rcases lt_trichotomy x 0 with h | h | h
  · exact Or.inr (Or.inl ⟨h, 1, by norm_num⟩)
  · exact Or.inr (Or.inr ⟨h, by norm_num⟩)
  · exact Or.inl h

lemma powDom_add {x a b : ℝ} (ha : PowDom x a) (hb : PowDom x b) :
    PowDom x (a + b) := by
  rcases ha with h | ⟨h, n, rfl⟩ | ⟨h, h0a⟩
  · exact Or.inl h
  · rcases hb with h' | ⟨h', m, rfl⟩ | ⟨h', _⟩
    · exact absurd h' (not_lt.mpr h.le)
    · exact Or.inr (Or.inl ⟨h, n + m, by push_cast; ring⟩)
    · exact absurd h' (ne_of_lt h)
  · rcases hb with h' | ⟨h', _⟩ | ⟨h', h0b⟩
    · exact absurd (h ▸ h') (lt_irrefl 0)
    · exact absurd (h ▸ h') (lt_irrefl 0)
    · exact Or.inr (Or.inr ⟨h, by linarith⟩)

/-- Under the Go `math.Pow` domain conditions of both exponents,
`x ^ (a + b) = x ^ a * x ^ b` also holds for `Real.rpow`'s extension to
nonpositive bases. -/
lemma rpow_add_powDom {x a b : ℝ} (ha : PowDom x a) (hb : PowDom x b) :
    x ^ (a + b) = x ^ a * x ^ b := by
  rcases ha with h | ⟨h, n, rfl⟩ | ⟨h, h0a⟩
  · exact Real.rpow_add h a b
  · rcases hb with h' | ⟨h', m, rfl⟩ | ⟨h', _⟩
    · exact absurd h' (not_lt.mpr h.le)
    · rw [show (n : ℝ) + (m : ℝ) = ((n + m : ℤ) : ℝ) by push_cast; ring]
      rw [Real.rpow_intCast, Real.rpow_intCast, Real.rpow_intCast]
      exact zpow_add₀ (ne_of_lt h) n m
    · exact absurd (h' ▸ h) (lt_irrefl 0)
  · subst h
    rcases eq_or_lt_of_le h0a with h0a | h0a
    · rcases hb with h' | ⟨h', _⟩ | ⟨_, h0b⟩
      · exact absurd h' (lt_irrefl 0)
      · exact absurd h' (lt_irrefl 0)
      · rw [← h0a, zero_add, Real.rpow_zero, one_mul]
    · rcases hb with h' | ⟨h', _⟩ | ⟨_, h0b⟩
      · exact absurd h' (lt_irrefl 0)
      · exact absurd h' (lt_irrefl 0)
      · rcases eq_or_lt_of_le h0b with h0b | h0b
        · rw [← h0b, add_zero, Real.rpow_zero, mul_one]
        · rw [Real.zero_rpow (ne_of_gt (add_pos h0a h0b)),
            Real.zero_rpow (ne_of_gt h0a), zero_mul]

/-! ## Small structural facts -/

lemma val_Variable (x : List ℝ) (v : ℕ) : Val x (.Variable v) = x.getD v 0 := rfl

lemma val_Constant (x : List ℝ) (c : ℚ) : Val x (.Constant c) = (c : ℝ) := rfl

lemma val_Pow (x : List ℝ) (b e : Func) :
    Val x (.Pow b e) = (Val x b) ^ (Val x e) := rfl

lemma sdef_Pow (x : List ℝ) (b e : Func) :
    SDefined x (.Pow b e) ↔
      SDefined x b ∧ SDefined x e ∧ PowDom (Val x b) (Val x e) := Iff.rfl

lemma isC0_eq {f : Func} (h : isC0 f) : f = .Constant 0 := by
  cases f
  case Constant c =>
    simp only [isC0] at h
    rw [h]
  all_goals exact h.elim

lemma isC1_eq {f : Func} (h : isC1 f) : f = .Constant 1 := by
  cases f
  case Constant c =>
    simp only [isC1] at h
    rw [h]
  all_goals exact h.elim

@[simp] lemma sdall_nil (x : List ℝ) : SDall x [] := by
  intro f hf; exact absurd hf (List.not_mem_nil f)

lemma sdall_cons {x : List ℝ} {f : Func} {l : List Func} :
    SDall x (f :: l) ↔ SDefined x f ∧ SDall x l := by
  constructor
  · exact fun h => ⟨h f (List.mem_cons_self f l), fun g hg => h g (List.mem_cons_of_mem f hg)⟩
  · rintro ⟨h1, h2⟩ g hg
    rcases List.mem_cons.mp hg with rfl | hg
    · exact h1
    · exact h2 g hg

lemma sdall_append {x : List ℝ} {l1 l2 : List Func} :
    SDall x (l1 ++ l2) ↔ SDall x l1 ∧ SDall x l2 := by
  constructor
  · exact fun h => ⟨fun g hg => h g (List.mem_append_left _ hg),
      fun g hg => h g (List.mem_append_right _ hg)⟩
  · rintro ⟨h1, h2⟩ g hg
    rcases List.mem_append.mp hg with hg | hg
    · exact h1 g hg
    · exact h2 g hg

@[simp] lemma sumv_nil (x : List ℝ) : sumv x [] = 0 := rfl

lemma sumv_cons (x : List ℝ) (f : Func) (l : List Func) :
    sumv x (f :: l) = Val x f + sumv x l := by simp [sumv]

lemma sumv_append (x : List ℝ) (l1 l2 : List Func) :
    sumv x (l1 ++ l2) = sumv x l1 + sumv x l2 := by simp [sumv]

@[simp] lemma prodv_nil (x : List ℝ) : prodv x [] = 1 := rfl

lemma prodv_cons (x : List ℝ) (f : Func) (l : List Func) :
    prodv x (f :: l) = Val x f * prodv x l := by simp [prodv]

lemma prodv_append (x : List ℝ) (l1 l2 : List Func) :
    prodv x (l1 ++ l2) = prodv x l1 * prodv x l2 := by simp [prodv]

/-! ## `dups` table lemmas -/

@[simp] lemma dupOK_nil (x : List ℝ) : dupOK x [] := by
  intro p hp; exact absurd hp (List.not_mem_nil p)

lemma dupOK_cons {x : List ℝ} {p : ℕ × Func} {dups : List (ℕ × Func)} :
    dupOK x (p :: dups) ↔
      (SDefined x p.2 ∧ PowDom (x.getD p.1 0) (Val x p.2)) ∧ dupOK x dups := by
  constructor
  · exact fun h => ⟨h p (List.mem_cons_self p dups),
      fun q hq => h q (List.mem_cons_of_mem p hq)⟩
  · rintro ⟨h1, h2⟩ q hq
    rcases List.mem_cons.mp hq with rfl | hq
    · exact h1
    · exact h2 q hq

lemma dupOK_append {x : List ℝ} {d1 d2 : List (ℕ × Func)} :
    dupOK x (d1 ++ d2) ↔ dupOK x d1 ∧ dupOK x d2 := by
  constructor
  · exact fun h => ⟨fun q hq => h q (List.mem_append_left _ hq),
      fun q hq => h q (List.mem_append_right _ hq)⟩
  · rintro ⟨h1, h2⟩ q hq
    rcases List.mem_append.mp hq with hq | hq
    · exact h1 q hq
    · exact h2 q hq

@[simp] lemma dupProd_nil (x : List ℝ) : dupProd x [] = 1 := rfl

lemma dupProd_cons (x : List ℝ) (p : ℕ × Func) (dups : List (ℕ × Func)) :
    dupProd x (p :: dups) = (x.getD p.1 0) ^ (Val x p.2) * dupProd x dups := by
  simp [dupProd]

lemma dupProd_append (x : List ℝ) (d1 d2 : List (ℕ × Func)) :
    dupProd x (d1 ++ d2) = dupProd x d1 * dupProd x d2 := by
  simp [dupProd]

/-- A successful lookup in a table satisfying the invariant yields an
exponent satisfying the invariant. -/
lemma lookupDup_ok {x : List ℝ} {dups : List (ℕ × Func)} {v : ℕ} {old : Func}
    (hd : dupOK x dups) (h : lookupDup dups v = some old) :
    SDefined x old ∧ PowDom (x.getD v 0) (Val x old) := by
  induction dups with
  | nil => exact absurd h (by simp [lookupDup])
  | cons p rest ih =>
    rcases p with ⟨w, e⟩
    rw [lookupDup] at h
    rcases dupOK_cons.mp hd with ⟨hp, hrest⟩
    by_cases hw : w = v
    · rw [if_pos hw] at h
      cases h
      exact ⟨hp.1, hw ▸ hp.2⟩
    · rw [if_neg hw] at h
      exact ih hrest h

/-- Updating an entry preserves the table invariant when the new exponent
satisfies it. -/
lemma dupOK_set {x : List ℝ} {dups : List (ℕ × Func)} {v : ℕ} {ne : Func}
    (hd : dupOK x dups) (hne : SDefined x ne ∧ PowDom (x.getD v 0) (Val x ne)) :
    dupOK x (setDup dups v ne) := by
  induction dups with
  | nil => simp [setDup]
  | cons p rest ih =>
    rcases p with ⟨w, e⟩
    rcases dupOK_cons.mp hd with ⟨hp, hrest⟩
    rw [setDup]
    by_cases hw : w = v
    · rw [if_pos hw]
      exact dupOK_cons.mpr ⟨by simpa [hw] using hne, hrest⟩
    · rw [if_neg hw]
      exact dupOK_cons.mpr ⟨hp, ih hrest⟩

/-- Replacing the looked-up exponent `old` of variable `v` by an
expression whose value is `Val old + Val exp` multiplies the table's
product by `x_v ^ Val exp`. -/
lemma dupProd_set {x : List ℝ} {dups : List (ℕ × Func)} {v : ℕ} {old ne exp : Func}
    (hl : lookupDup dups v = some old)
    (hval : Val x ne = Val x old + Val x exp)
    (hold : PowDom (x.getD v 0) (Val x old))
    (hexp : PowDom (x.getD v 0) (Val x exp)) :
    dupProd x (setDup dups v ne) = dupProd x dups * (x.getD v 0) ^ (Val x exp) := by
  induction dups with
  | nil => exact absurd hl (by simp [lookupDup])
  | cons p rest ih =>
    rcases p with ⟨w, e⟩
    rw [lookupDup] at hl
    rw [setDup]
    by_cases hw : w = v
    · rw [if_pos hw] at hl ⊢
      cases hl
      rw [dupProd_cons, dupProd_cons, hval]
      simp only [hw]
      rw [rpow_add_powDom hold hexp]
      ring
    · rw [if_neg hw] at hl ⊢
      rw [dupProd_cons, dupProd_cons, ih hl]
      ring

/-! ## Soundness of the simplifier passes -/

/-- The first `Sum.Simplify` loop preserves definedness and the sum of
values (dropped terms simplified to `Constant(0)`, so their value was
0). -/
lemma sumNonzero_ok {S : Func → Option Func} {x : List ℝ} (hS : SOK S x) :
    ∀ {l l2 : List Func}, sumNonzero S l = some l2 → SDall x l →
      SDall x l2 ∧ sumv x l2 = sumv x l := by
  intro l
  induction l with
  | nil =>
    intro l2 h _
    rw [sumNonzero] at h
    cases h
    exact ⟨sdall_nil x, rfl⟩
  | cons f fs ih =>
    intro l2 h hd
    rcases sdall_cons.mp hd with ⟨hdf, hdfs⟩
    rw [sumNonzero] at h
    cases hSf : S f with
    | none => rw [hSf] at h; exact absurd h (by simp)
    | some simple =>
      rw [hSf] at h
      simp only [Option.some_bind] at h
      rcases hS f simple hSf hdf with ⟨hds, hvs⟩
      by_cases hc : isC0 simple
      · rw [if_pos hc] at h
        rcases ih h hdfs with ⟨h1, h2⟩
        refine ⟨h1, ?_⟩
        have : Val x simple = 0 := by rw [isC0_eq hc, Val]; norm_num
        rw [sumv_cons, h2, ← hvs, this, zero_add]
      · rw [if_neg hc] at h
        cases hrec : sumNonzero S fs with
        | none => rw [hrec] at h; exact absurd h (by simp)
        | some l2' =>
          rw [hrec] at h
          simp only [Option.map_some'] at h
          cases h
          rcases ih hrec hdfs with ⟨h1, h2⟩
          exact ⟨sdall_cons.mpr ⟨hds, h1⟩, by rw [sumv_cons, sumv_cons, h2, hvs]⟩

/-- The second `Sum.Simplify` loop preserves definedness, and the kept
terms plus the merged constant have the original sum of values. -/
lemma sumMerge_ok {S : Func → Option Func} {x : List ℝ} (hS : SOK S x) :
    ∀ {l : List Func} {p : List Func × ℚ},
      sumMerge S l = some p → SDall x l →
      SDall x p.1 ∧ sumv x p.1 + (p.2 : ℝ) = sumv x l := by
  intro l
  induction l with
  | nil =>
    intro p h _
    rw [sumMerge] at h
    cases h
    simp
  | cons f fs ih =>
    intro p h hd
    rcases sdall_cons.mp hd with ⟨hdf, hdfs⟩
    rw [sumMerge] at h
    cases hSf : S f with
    | none => rw [hSf] at h; exact absurd h (by simp)
    | some simple =>
      rw [hSf] at h
      simp only [Option.some_bind] at h
      rcases hS f simple hSf hdf with ⟨hds, hvs⟩
      cases hsimple : simple with
      | Constant c =>
        rw [hsimple] at h
        cases hrec : sumMerge S fs with
        | none => rw [hrec] at h; exact absurd h (by simp)
        | some q =>
          rw [hrec] at h
          simp only [Option.map_some'] at h
          cases h
          rcases ih hrec hdfs with ⟨h1, h2⟩
          refine ⟨h1, ?_⟩
          have hvc : Val x f = (c : ℝ) := by rw [← hvs, hsimple, Val]
          rw [sumv_cons, hvc, ← h2]
          push_cast
          ring
      | _ =>
        all_goals (
          rw [hsimple] at h
          cases hrec : sumMerge S fs with
          | none => rw [hrec] at h; exact absurd h (by simp)
          | some q =>
            rw [hrec] at h
            simp only [Option.map_some'] at h
            cases h
            rcases ih hrec hdfs with ⟨h1, h2⟩
            dsimp only
            rw [← hsimple]
            refine ⟨sdall_cons.mpr ⟨hds, h1⟩, ?_⟩
            rw [sumv_cons, sumv_cons, hvs, ← h2]
            ring)

/-- Re-simplifying every element of a list (the flatten step) preserves
definedness and the product of values. -/
lemma mapSimp_ok {S : Func → Option Func} {x : List ℝ} (hS : SOK S x) :
    ∀ {l l2 : List Func}, mapSimp S l = some l2 → SDall x l →
      SDall x l2 ∧ prodv x l2 = prodv x l := by
  intro l
  induction l with
  | nil =>
    intro l2 h _
    rw [mapSimp] at h
    cases h
    exact ⟨sdall_nil x, rfl⟩
  | cons f fs ih =>
    intro l2 h hd
    rcases sdall_cons.mp hd with ⟨hdf, hdfs⟩
    rw [mapSimp] at h
    cases hSf : S f with
    | none => rw [hSf] at h; exact absurd h (by simp)
    | some r =>
      rw [hSf] at h
      simp only [Option.some_bind] at h
      cases hrec : mapSimp S fs with
      | none => rw [hrec] at h; exact absurd h (by simp)
      | some l2' =>
        rw [hrec] at h
        simp only [Option.map_some'] at h
        cases h
        rcases hS f r hSf hdf with ⟨hds, hvs⟩
        rcases ih hrec hdfs with ⟨h1, h2⟩
        exact ⟨sdall_cons.mpr ⟨hds, h1⟩, by rw [prodv_cons, prodv_cons, h2, hvs]⟩

/-- The first `Mult.Simplify` loop: the early whole-product zero return
(inner `none`) only fires when the product's value is 0, and otherwise
the gathered factor list is defined with the original product of
values. -/
lemma multGather_ok {S : Func → Option Func} {x : List ℝ} (hS : SOK S x) :
    ∀ {l : List Func} {res : Option (List Func)},
      multGather S l = some res → SDall x l →
      (res = none → prodv x l = 0) ∧
      (∀ l2, res = some l2 → SDall x l2 ∧ prodv x l2 = prodv x l) := by
  intro l
  induction l with
  | nil =>
    intro res h _
    rw [multGather] at h
    cases h
    refine ⟨fun hn => absurd hn (by simp), fun l2 hl2 => ?_⟩
    cases hl2
    exact ⟨sdall_nil x, rfl⟩
  | cons f fs ih =>
    intro res h hd
    rcases sdall_cons.mp hd with ⟨hdf, hdfs⟩
    rw [multGather] at h
    cases hSf : S f with
    | none => rw [hSf] at h; exact absurd h (by simp)
    | some simple =>
      rw [hSf] at h
      simp only [Option.some_bind] at h
      rcases hS f simple hSf hdf with ⟨hds, hvs⟩
      by_cases hc0 : isC0 simple
      · rw [if_pos hc0] at h
        cases h
        refine ⟨fun _ => ?_, fun l2 hl2 => absurd hl2 (by simp)⟩
        have : Val x f = 0 := by
          rw [← hvs, isC0_eq hc0, Val]; norm_num
        rw [prodv_cons, this, zero_mul]
      · rw [if_neg hc0] at h
        by_cases hc1 : isC1 simple
        · rw [if_pos hc1] at h
          rcases ih h hdfs with ⟨hn, hs⟩
          have hv1 : Val x f = 1 := by
            rw [← hvs, isC1_eq hc1, Val]; norm_num
          refine ⟨fun hres => ?_, fun l2 hl2 => ?_⟩
          · rw [prodv_cons, hv1, one_mul]; exact hn hres
          · rcases hs l2 hl2 with ⟨h1, h2⟩
            exact ⟨h1, by rw [prodv_cons, hv1, one_mul, h2]⟩
        · rw [if_neg hc1] at h
          cases hsimple : simple with
          | Mult inner =>
            rw [hsimple] at h
            dsimp only at h
            cases hmap : mapSimp S inner with
            | none => rw [hmap] at h; exact absurd h (by simp)
            | some inner2 =>
              rw [hmap] at h
              simp only [Option.some_bind] at h
              cases hrec : multGather S fs with
              | none => rw [hrec] at h; exact absurd h (by simp)
              | some res0 =>
                rw [hrec] at h
                simp only [Option.map_some'] at h
                cases h
                rcases ih hrec hdfs with ⟨hn, hs⟩
                have hdinner : SDall x inner := by
                  have := hsimple ▸ hds
                  exact fun g hg => (sdef_Mult x inner).mp this g hg
                rcases mapSimp_ok hS hmap hdinner with ⟨hdi2, hvi2⟩
                have hvf : Val x f = prodv x inner := by
                  rw [← hvs, hsimple, val_Mult]; rfl
                refine ⟨fun hres => ?_, fun l2 hl2 => ?_⟩
                · rcases hres0 : res0 with _ | l0
                  · rw [prodv_cons, hn hres0, mul_zero]
                  · rw [hres0] at hres; exact absurd hres (by simp)
                · rcases hres0 : res0 with _ | l0
                  · rw [hres0] at hl2; exact absurd hl2 (by simp)
                  · rw [hres0] at hl2
                    simp only [Option.map_some', Option.some.injEq] at hl2
                    subst hl2
                    rcases hs l0 hres0 with ⟨h1, h2⟩
                    refine ⟨sdall_append.mpr ⟨hdi2, h1⟩, ?_⟩
                    rw [prodv_append, prodv_cons, hvi2, h2, hvf]
          | _ =>
            all_goals (
              rw [hsimple] at h
              dsimp only at h
              cases hrec : multGather S fs with
              | none => rw [hrec] at h; exact absurd h (by simp)
              | some res0 =>
                rw [hrec] at h
                simp only [Option.map_some'] at h
                cases h
                rcases ih hrec hdfs with ⟨hn, hs⟩
                refine ⟨fun hres => ?_, fun l2 hl2 => ?_⟩
                · rcases hres0 : res0 with _ | l0
                  · rw [prodv_cons, hn hres0, mul_zero]
                  · rw [hres0] at hres; exact absurd hres (by simp)
                · rcases hres0 : res0 with _ | l0
                  · rw [hres0] at hl2; exact absurd hl2 (by simp)
                  · rw [hres0] at hl2
                    simp only [Option.map_some', Option.some.injEq] at hl2
                    subst hl2
                    rcases hs l0 hres0 with ⟨h1, h2⟩
                    refine ⟨sdall_cons.mpr ⟨hsimple ▸ hds, h1⟩, ?_⟩
                    rw [prodv_cons, prodv_cons, h2, ← hsimple, hvs])

/-- The second `Mult.Simplify` loop preserves definedness, the `dups`
table invariant, and the total product: kept factors times the constant
total times the merged-powers product. -/
lemma multMerge_ok {S : Func → Option Func} {x : List ℝ} (hS : SOK S x) :
    ∀ {l simpler : List Func} {tot : ℚ} {dups : List (ℕ × Func)}
      {t : List Func × ℚ × List (ℕ × Func)},
      multMerge S l simpler tot dups = some t →
      SDall x l → SDall x simpler → dupOK x dups →
      SDall x t.1 ∧ dupOK x t.2.2 ∧
      prodv x t.1 * (t.2.1 : ℝ) * dupProd x t.2.2
        = prodv x simpler * (tot : ℝ) * dupProd x dups * prodv x l := by
  intro l
  induction l with
  | nil =>
    intro simpler tot dups t h _ hsim hdup
    rw [multMerge] at h
    cases h
    refine ⟨hsim, hdup, ?_⟩
    rw [prodv_nil]
    ring
  | cons f fs ih =>
    intro simpler tot dups t h hd hsim hdup
    rcases sdall_cons.mp hd with ⟨hdf, hdfs⟩
    cases f
    case Variable v =>
      rw [multMerge] at h
      cases hlk : lookupDup dups v with
      | some old =>
        simp only [hlk] at h
        cases hSm : S (.Sum [old, .Constant 1]) with
        | none => rw [hSm] at h; exact absurd h (by simp)
        | some ne =>
          rw [hSm] at h
          simp only [Option.some_bind] at h
          rcases lookupDup_ok hdup hlk with ⟨hdold, hpdold⟩
          have hdsum : SDefined x (.Sum [old, .Constant 1]) := by
            rw [sdef_Sum]
            intro g hg
            rcases List.mem_cons.mp hg with rfl | hg
            · exact hdold
            · rcases List.mem_cons.mp hg with rfl | hg
              · trivial
              · exact absurd hg (List.not_mem_nil g)
          rcases hS _ ne hSm hdsum with ⟨hdne, hvne⟩
          have hvne' : Val x ne = Val x old + Val x (.Constant 1) := by
            rw [hvne, val_Sum]
            simp
          have hpd1 : PowDom (x.getD v 0) (Val x (.Constant 1)) := by
            rw [val_Constant, Rat.cast_one]
            exact powDom_one _
          have hpdne : PowDom (x.getD v 0) (Val x ne) := by
            rw [hvne']
            exact powDom_add hpdold hpd1
          rcases ih h hdfs hsim (dupOK_set hdup ⟨hdne, hpdne⟩) with ⟨h1, h2, h3⟩
          refine ⟨h1, h2, ?_⟩
          have hset := dupProd_set hlk hvne' hpdold hpd1
          rw [h3, hset, prodv_cons, val_Variable, val_Constant, Rat.cast_one,
            Real.rpow_one]
          ring
      | none =>
        simp only [hlk] at h
        have hdup' : dupOK x (dups ++ [(v, .Constant 1)]) := by
          rw [dupOK_append]
          refine ⟨hdup, ?_⟩
          intro p hp
          rcases List.mem_cons.mp hp with rfl | hp
          · refine ⟨trivial, ?_⟩
            dsimp only
            rw [val_Constant, Rat.cast_one]
            exact powDom_one _
          · exact absurd hp (List.not_mem_nil p)
        rcases ih h hdfs hsim hdup' with ⟨h1, h2, h3⟩
        refine ⟨h1, h2, ?_⟩
        rw [h3, dupProd_append, dupProd_cons, dupProd_nil, val_Constant, Rat.cast_one,
          Real.rpow_one, prodv_cons, val_Variable]
        ring
    case Constant c =>
      rw [multMerge] at h
      rcases ih h hdfs hsim hdup with ⟨h1, h2, h3⟩
      refine ⟨h1, h2, ?_⟩
      rw [h3, prodv_cons, val_Constant]
      push_cast
      ring
    case Pow b exp =>
      cases b
      case Variable v =>
        rw [multMerge] at h
        rcases (sdef_Pow x _ exp).mp hdf with ⟨_, hde, hpd⟩
        rw [val_Variable] at hpd
        cases hlk : lookupDup dups v with
        | some old =>
          simp only [hlk] at h
          cases hSm : S (.Sum [old, exp]) with
          | none => rw [hSm] at h; exact absurd h (by simp)
          | some ne =>
            rw [hSm] at h
            simp only [Option.some_bind] at h
            rcases lookupDup_ok hdup hlk with ⟨hdold, hpdold⟩
            have hdsum : SDefined x (.Sum [old, exp]) := by
              rw [sdef_Sum]
              intro g hg
              rcases List.mem_cons.mp hg with rfl | hg
              · exact hdold
              · rcases List.mem_cons.mp hg with rfl | hg
                · exact hde
                · exact absurd hg (List.not_mem_nil g)
            rcases hS _ ne hSm hdsum with ⟨hdne, hvne⟩
            have hvne' : Val x ne = Val x old + Val x exp := by
              rw [hvne, val_Sum]
              simp
            have hpdne : PowDom (x.getD v 0) (Val x ne) := by
              rw [hvne']
              exact powDom_add hpdold hpd
            rcases ih h hdfs hsim (dupOK_set hdup ⟨hdne, hpdne⟩) with ⟨h1, h2, h3⟩
            refine ⟨h1, h2, ?_⟩
            rw [h3, dupProd_set hlk hvne' hpdold hpd]
            rw [prodv_cons, val_Pow, val_Variable]
            ring
        | none =>
          simp only [hlk] at h
          have hdup' : dupOK x (dups ++ [(v, exp)]) := by
            rw [dupOK_append]
            refine ⟨hdup, ?_⟩
            intro p hp
            rcases List.mem_cons.mp hp with rfl | hp
            · exact ⟨hde, hpd⟩
            · exact absurd hp (List.not_mem_nil p)
          rcases ih h hdfs hsim hdup' with ⟨h1, h2, h3⟩
          refine ⟨h1, h2, ?_⟩
          rw [h3, dupProd_append, dupProd_cons, dupProd_nil]
          rw [prodv_cons, val_Pow, val_Variable]
          ring
      all_goals (
        simp only [multMerge] at h
        rcases ih h hdfs (sdall_append.mpr ⟨hsim, by
          intro g hg
          rcases List.mem_cons.mp hg with rfl | hg
          · exact hdf
          · exact absurd hg (List.not_mem_nil g)⟩) hdup with ⟨h1, h2, h3⟩
        refine ⟨h1, h2, ?_⟩
        rw [h3, prodv_append, prodv_cons, prodv_cons, prodv_nil]
        ring)
    all_goals (
      simp only [multMerge] at h
      rcases ih h hdfs (sdall_append.mpr ⟨hsim, by
        intro g hg
        rcases List.mem_cons.mp hg with rfl | hg
        · exact hdf
        · exact absurd hg (List.not_mem_nil g)⟩) hdup with ⟨h1, h2, h3⟩
      refine ⟨h1, h2, ?_⟩
      rw [h3, prodv_append, prodv_cons, prodv_cons, prodv_nil]
      ring)

/-- Rebuilding and simplifying the merged `dups` entries yields defined
factors whose product is the table's product. -/
lemma simpDups_ok {S : Func → Option Func} {x : List ℝ} (hS : SOK S x) :
    ∀ {dups : List (ℕ × Func)} {l2 : List Func},
      simpDups S dups = some l2 → dupOK x dups →
      SDall x l2 ∧ prodv x l2 = dupProd x dups := by
  intro dups
  induction dups with
  | nil =>
    intro l2 h _
    rw [simpDups] at h
    cases h
    exact ⟨sdall_nil x, rfl⟩
  | cons p rest ih =>
    intro l2 h hdup
    rcases p with ⟨v, e⟩
    rw [simpDups] at h
    rcases dupOK_cons.mp hdup with ⟨⟨hde, hpd⟩, hrest⟩
    cases hSp : S (.Pow (.Variable v) e) with
    | none => rw [hSp] at h; exact absurd h (by simp)
    | some r =>
      rw [hSp] at h
      simp only [Option.some_bind] at h
      cases hrec : simpDups S rest with
      | none => rw [hrec] at h; exact absurd h (by simp)
      | some l2' =>
        rw [hrec] at h
        simp only [Option.map_some'] at h
        cases h
        have hdpow : SDefined x (.Pow (.Variable v) e) := by
          rw [sdef_Pow]
          exact ⟨trivial, hde, by rw [val_Variable]; exact hpd⟩
        rcases hS _ r hSp hdpow with ⟨hdr, hvr⟩
        rcases ih hrec hrest with ⟨h1, h2⟩
        refine ⟨sdall_cons.mpr ⟨hdr, h1⟩, ?_⟩
        rw [prodv_cons, h2, hvr, val_Pow, val_Variable, dupProd_cons]

/-- Soundness of the simplifier: at every strongly defined point, a
successful `Simplify` (any fuel) yields a strongly defined expression
with the same value.  This is the inductive core behind the
value-preservation claims. -/
theorem simplify_ok : ∀ (n : ℕ) (x : List ℝ), SOK (simplifyF n) x := by
  intro n
  induction n with
  | zero =>
    intro x f r h
    rw [simplifyF] at h
    exact absurd h (by simp)
  | succ n ih =>
    intro x f r h hd
    cases f with
    | Variable i =>
      rw [simplifyF] at h
      cases h
      exact ⟨hd, rfl⟩
    | Constant c =>
      rw [simplifyF] at h
      cases h
      exact ⟨hd, rfl⟩
    | Branch b =>
      rw [simplifyF] at h
      cases h
      exact ⟨hd, rfl⟩
    | Ln f =>
      rw [simplifyF] at h
      rcases hd with ⟨hdf, hpos⟩
      cases hf : simplifyF n f with
      | none => rw [hf] at h; exact absurd h (by simp)
      | some f2 =>
        rw [hf] at h
        simp only [Option.map_some'] at h
        cases h
        rcases ih x f f2 hf hdf with ⟨h1, h2⟩
        exact ⟨⟨h1, by rw [h2]; exact hpos⟩, by rw [Val, Val, h2]⟩
    | Tanh f =>
      rw [simplifyF] at h
      cases hf : simplifyF n f with
      | none => rw [hf] at h; exact absurd h (by simp)
      | some f2 =>
        rw [hf] at h
        simp only [Option.map_some'] at h
        cases h
        rcases ih x f f2 hf hd with ⟨h1, h2⟩
        exact ⟨h1, by rw [Val, Val, h2]⟩
    | Pow b e =>
      rw [simplifyF] at h
      rcases (sdef_Pow x b e).mp hd with ⟨hdb, hde, hpd⟩
      cases hb : simplifyF n b with
      | none => rw [hb] at h; exact absurd h (by simp)
      | some b2 =>
        rw [hb] at h
        simp only [Option.some_bind] at h
        cases he : simplifyF n e with
        | none => rw [he] at h; exact absurd h (by simp)
        | some e2 =>
          rw [he] at h
          simp only [Option.some_bind] at h
          rcases ih x b b2 hb hdb with ⟨hdb2, hvb2⟩
          rcases ih x e e2 he hde with ⟨hde2, hve2⟩
          by_cases hc0 : isC0 e2
          · rw [if_pos hc0] at h
            cases h
            have hv0 : Val x e = 0 := by
              rw [← hve2, isC0_eq hc0, val_Constant]
              norm_num
            refine ⟨trivial, ?_⟩
            rw [val_Constant, Rat.cast_one, val_Pow, hv0, Real.rpow_zero]
          · rw [if_neg hc0] at h
            by_cases hc1 : isC1 e2
            · rw [if_pos hc1] at h
              cases h
              have hv1 : Val x e = 1 := by
                rw [← hve2, isC1_eq hc1, val_Constant]
                norm_num
              exact ⟨hdb2, by rw [hvb2, val_Pow, hv1, Real.rpow_one]⟩
            · rw [if_neg hc1] at h
              cases h
              refine ⟨(sdef_Pow x b2 e2).mpr ⟨hdb2, hde2, ?_⟩, ?_⟩
              · rw [hvb2, hve2]; exact hpd
              · rw [val_Pow, val_Pow, hvb2, hve2]
    | Sum s =>
      rw [simplifyF] at h
      have hds : SDall x s := (sdef_Sum x s).mp hd
      cases h1 : sumNonzero (simplifyF n) s with
      | none => rw [h1] at h; exact absurd h (by simp)
      | some nonzero =>
        rw [h1] at h
        simp only [Option.some_bind] at h
        cases h2 : sumMerge (simplifyF n) nonzero with
        | none => rw [h2] at h; exact absurd h (by simp)
        | some p =>
          rw [h2] at h
          simp only [Option.map_some', Option.some.injEq] at h
          rcases sumNonzero_ok (ih x) h1 hds with ⟨hd1, hv1⟩
          rcases sumMerge_ok (ih x) h2 hd1 with ⟨hd2, hv2⟩
          have hdL : SDall x (if p.2 = 0 then p.1 else p.1 ++ [.Constant p.2]) := by
            by_cases hz : p.2 = 0
            · rw [if_pos hz]; exact hd2
            · rw [if_neg hz]
              exact sdall_append.mpr ⟨hd2, by
                intro g hg
                rcases List.mem_cons.mp hg with rfl | hg
                · trivial
                · exact absurd hg (List.not_mem_nil g)⟩
          have hvL : sumv x (if p.2 = 0 then p.1 else p.1 ++ [.Constant p.2])
              = Val x (.Sum s) := by
            rw [val_Sum]
            by_cases hz : p.2 = 0
            · rw [if_pos hz]
              have : sumv x p.1 = sumv x nonzero := by
                rw [← hv2, hz]
                norm_num
              rw [this, hv1]; rfl
            · rw [if_neg hz, sumv_append, sumv_cons, sumv_nil, val_Constant,
                add_zero, hv2, hv1]
              rfl
          subst h
          revert hdL hvL
          generalize (if p.2 = 0 then p.1 else p.1 ++ [Func.Constant p.2]) = L
          intro hdL hvL
          cases L with
          | nil =>
            refine ⟨trivial, ?_⟩
            show Val x (.Constant 0) = Val x (.Sum s)
            rw [← hvL, sumv_nil, val_Constant]
            norm_num
          | cons a rest =>
            cases rest with
            | nil =>
              refine ⟨hdL a (List.mem_cons_self a []), ?_⟩
              show Val x a = Val x (.Sum s)
              rw [← hvL, sumv_cons, sumv_nil, add_zero]
            | cons b rest2 =>
              exact ⟨(sdef_Sum x _).mpr hdL, by
                show Val x (.Sum (a :: b :: rest2)) = Val x (.Sum s)
                rw [val_Sum, ← hvL]
                rfl⟩
    | Mult m =>
      rw [simplifyF] at h
      have hdm : SDall x m := (sdef_Mult x m).mp hd
      cases h1 : multGather (simplifyF n) m with
      | none => rw [h1] at h; exact absurd h (by simp)
      | some g =>
        rw [h1] at h
        simp only [Option.some_bind] at h
        rcases multGather_ok (ih x) h1 hdm with ⟨hgn, hgs⟩
        cases hg : g with
        | none =>
          simp only [hg] at h
          cases h
          refine ⟨trivial, ?_⟩
          rw [val_Constant, val_Mult, Rat.cast_zero]
          exact (hgn hg).symm
        | some simplified =>
          simp only [hg] at h
          rcases hgs simplified hg with ⟨hdg, hvg⟩
          cases h2 : multMerge (simplifyF n) simplified [] 1 [] with
          | none => rw [h2] at h; exact absurd h (by simp)
          | some t =>
            rw [h2] at h
            simp only [Option.some_bind] at h
            cases h3 : simpDups (simplifyF n) t.2.2 with
            | none => rw [h3] at h; exact absurd h (by simp)
            | some dupsimp =>
              rw [h3] at h
              simp only [Option.map_some', Option.some.injEq] at h
              rcases multMerge_ok (ih x) h2 hdg (sdall_nil x) (dupOK_nil x)
                with ⟨ht1, ht2, ht3⟩
              rcases simpDups_ok (ih x) h3 ht2 with ⟨hdd, hvd⟩
              have hvall : prodv x (t.1 ++ [.Constant t.2.1] ++ dupsimp)
                  = Val x (.Mult m) := by
                rw [val_Mult, prodv_append, prodv_append, prodv_cons, prodv_nil,
                  val_Constant, mul_one, hvd]
                calc prodv x t.1 * (t.2.1 : ℝ) * dupProd x t.2.2
                    = prodv x [] * ((1 : ℚ) : ℝ) * dupProd x [] * prodv x simplified :=
                      ht3
                  _ = prodv x simplified := by
                      rw [prodv_nil, dupProd_nil, Rat.cast_one]; ring
                  _ = prodv x m := hvg
                  _ = (m.map (Val x)).prod := rfl
              have hdall : SDall x (t.1 ++ [.Constant t.2.1] ++ dupsimp) := by
                refine sdall_append.mpr ⟨sdall_append.mpr ⟨ht1, ?_⟩, hdd⟩
                intro q hq
                rcases List.mem_cons.mp hq with rfl | hq
                · trivial
                · exact absurd hq (List.not_mem_nil q)
              subst h
              revert hdall hvall
              generalize t.1 ++ [Func.Constant t.2.1] ++ dupsimp = L
              intro hvall hdall
              cases L with
              | nil =>
                refine ⟨trivial, ?_⟩
                show Val x (.Constant 1) = Val x (.Mult m)
                rw [← hvall, prodv_nil, val_Constant]
                norm_num
              | cons a rest =>
                cases rest with
                | nil =>
                  refine ⟨hdall a (List.mem_cons_self a []), ?_⟩
                  show Val x a = Val x (.Mult m)
                  rw [← hvall, prodv_cons, prodv_nil, mul_one]
                | cons b rest2 =>
                  exact ⟨(sdef_Mult x _).mpr hdall, by
                    show Val x (.Mult (a :: b :: rest2)) = Val x (.Mult m)
                    rw [val_Mult, ← hvall]
                    rfl⟩

end Func


/-! ## Training-loop lemmas -/

namespace Network

open Func

lemma setWeights_length : ∀ {ws : List ℕ} {state s2 : List ℝ},
    setWeights state ws = some s2 → s2.length = state.length := by
  intro ws
  induction ws with
  | nil =>
    intro state s2 h
    rw [setWeights] at h
    cases h
    rfl
  | cons w ws ih =>
    intro state s2 h
    rw [setWeights] at h
    by_cases hw : w < state.length
    · rw [if_pos hw] at h
      rw [ih h, List.length_set]
    · rw [if_neg hw] at h
      exact absurd h (by simp)

lemma writeVars_length : ∀ {vars : List ℕ} {pos state s2 : List ℝ},
    writeVars state vars pos = some s2 → s2.length = state.length := by
  intro vars
  induction vars with
  | nil =>
    intro pos state s2 h
    rw [writeVars] at h
    cases h
    rfl
  | cons v vs ih =>
    intro pos state s2 h
    cases pos with
    | nil => rw [writeVars] at h; exact absurd h (by simp)
    | cons p ps =>
      rw [writeVars] at h
      by_cases hv : v < state.length
      · rw [if_pos hv] at h
        rw [ih h, List.length_set]
      · rw [if_neg hv] at h
        exact absurd h (by simp)

lemma applyDeltas_length : ∀ {ws : List ℕ} {ds state s2 : List ℝ},
    applyDeltas state ws ds = some s2 → s2.length = state.length := by
  intro ws
  induction ws with
  | nil =>
    intro ds state s2 h
    rw [applyDeltas] at h
    cases h
    rfl
  | cons w ws ih =>
    intro ds state s2 h
    cases ds with
    | nil => rw [applyDeltas] at h; exact absurd h (by simp)
    | cons d ds =>
      rw [applyDeltas] at h
      by_cases hw : w < state.length
      · rw [dif_pos hw] at h
        rw [ih h, List.length_set]
      · rw [dif_neg hw] at h
        exact absurd h (by simp)

lemma trainPoint_length {fuel : ℕ} {cost : Func} {lr : ℝ} {vars ws : List ℕ}
    {state : List ℝ} {derivs : List (ℕ × Func)} {pos : List ℝ}
    {out : List ℝ × List (ℕ × Func)}
    (h : trainPoint fuel cost lr vars ws state derivs pos = some out) :
    out.1.length = state.length := by
  rw [trainPoint] at h
  cases h1 : writeVars state vars pos with
  | none =>
    rw [h1] at h
    exact absurd h (by simp)
  | some state1 =>
    rw [h1] at h
    simp only [Option.some_bind] at h
    by_cases he : ws.isEmpty
    · rw [if_pos he] at h
      exact absurd h (by simp)
    · rw [if_neg he] at h
      cases h2 : computeDeltas fuel cost lr state1 ws derivs with
      | none => rw [h2] at h; exact absurd h (by simp)
      | some p =>
        rw [h2] at h
        simp only [Option.some_bind] at h
        cases h3 : applyDeltas state1 ws p.1 with
        | none => rw [h3] at h; exact absurd h (by simp)
        | some s2 =>
          rw [h3] at h
          simp only [Option.map_some'] at h
          cases h
          rw [applyDeltas_length h3, writeVars_length h1]

lemma trainLoop_length {fuel : ℕ} {cost : Func} {lr : ℝ} {vars ws : List ℕ} :
    ∀ {pts : List (List ℝ)} {state : List ℝ} {derivs : List (ℕ × Func)}
      {stateF : List ℝ},
      trainLoop fuel cost lr vars ws state derivs pts = some stateF →
      stateF.length = state.length := by
  intro pts
  induction pts with
  | nil =>
    intro state derivs stateF h
    rw [trainLoop] at h
    cases h
    rfl
  | cons pos rest ih =>
    intro state derivs stateF h
    rw [trainLoop] at h
    cases h1 : trainPoint fuel cost lr vars ws state derivs pos with
    | none => rw [h1] at h; exact absurd h (by simp)
    | some out =>
      rw [h1] at h
      simp only [Option.some_bind] at h
      rw [ih h, trainPoint_length h1]

end Network

namespace Func

lemma lookupDup_append_some {d1 d2 : List (ℕ × Func)} {w : ℕ} {g : Func}
    (h : lookupDup d1 w = some g) : lookupDup (d1 ++ d2) w = some g := by
  induction d1 with
  | nil => exact absurd h (by simp [lookupDup])
  | cons p rest ih =>
    rcases p with ⟨u, e⟩
    rw [lookupDup] at h
    rw [List.cons_append, lookupDup]
    by_cases hu : u = w
    · rwa [if_pos hu] at h ⊢
    · rw [if_neg hu] at h ⊢
      exact ih h

lemma lookupDup_append_none {d1 d2 : List (ℕ × Func)} {w : ℕ}
    (h : lookupDup d1 w = none) : lookupDup (d1 ++ d2) w = lookupDup d2 w := by
  induction d1 with
  | nil => rfl
  | cons p rest ih =>
    rcases p with ⟨u, e⟩
    rw [lookupDup] at h
    rw [List.cons_append, lookupDup]
    by_cases hu : u = w
    · rw [if_pos hu] at h; exact absurd h (by simp)
    · rw [if_neg hu] at h ⊢
      exact ih h

end Func

namespace Network

open Func

/-- Delta computation: with a sound cache, every delta is
`-learnRate * value(simplified gradient, state)` against the one state
passed in, the returned cache remains sound and extends the input one,
and every processed weight is cached. -/
lemma computeDeltas_spec {fuel : ℕ} {cost : Func} {lr : ℝ} {state : List ℝ} :
    ∀ {ws : List ℕ} {derivs : List (ℕ × Func)} {p : List ℝ × List (ℕ × Func)},
      computeDeltas fuel cost lr state ws derivs = some p →
      cacheOK fuel cost derivs →
      p.1 = ws.map (fun w => -lr * Val state (gradF fuel cost w)) ∧
      cacheOK fuel cost p.2 ∧
      (∀ w g, lookupDup derivs w = some g → lookupDup p.2 w = some g) ∧
      (∀ w, w ∈ ws → lookupDup p.2 w = some (gradF fuel cost w)) := by
  intro ws
  induction ws with
  | nil =>
    intro derivs p h hc
    rw [computeDeltas] at h
    cases h
    exact ⟨rfl, hc, fun w g hg => hg, fun w hw => absurd hw (List.not_mem_nil w)⟩
  | cons w ws ih =>
    intro derivs p h hc
    rw [computeDeltas] at h
    cases hlk : lookupDup derivs w with
    | some g =>
      simp only [hlk] at h
      simp only [Option.some_bind] at h
      cases h2 : computeDeltas fuel cost lr state ws derivs with
      | none => rw [h2] at h; exact absurd h (by simp)
      | some q =>
        rw [h2] at h
        simp only [Option.map_some'] at h
        cases h
        rcases ih h2 hc with ⟨hds, hc2, hmono, hmem⟩
        have hg : gradF fuel cost w = g := by
          rw [gradF, hc _ _ hlk]
          rfl
        refine ⟨?_, hc2, hmono, ?_⟩
        · dsimp only
          rw [hds, List.map_cons, hg]
        · intro u hu
          rcases List.mem_cons.mp hu with rfl | hu
          · rw [hg]
            exact hmono _ _ hlk
          · exact hmem u hu
    | none =>
      simp only [hlk] at h
      cases hs : simplifyF fuel (Partial w cost) with
      | none => rw [hs] at h; exact absurd h (by simp)
      | some g =>
        rw [hs] at h
        simp only [Option.map_some', Option.some_bind] at h
        cases h2 : computeDeltas fuel cost lr state ws (derivs ++ [(w, g)]) with
        | none => rw [h2] at h; exact absurd h (by simp)
        | some q =>
          rw [h2] at h
          simp only [Option.map_some'] at h
          cases h
          have hc' : cacheOK fuel cost (derivs ++ [(w, g)]) := by
            intro u e hu
            by_cases hlu : ∃ e0, lookupDup derivs u = some e0
            · rcases hlu with ⟨e0, hlu⟩
              rw [lookupDup_append_some hlu] at hu
              cases hu
              exact hc _ _ hlu
            · have hnone : lookupDup derivs u = none := by
                cases hd : lookupDup derivs u with
                | none => rfl
                | some e0 => exact absurd ⟨e0, hd⟩ hlu
              rw [lookupDup_append_none hnone, lookupDup] at hu
              by_cases hwu : w = u
              · rw [if_pos hwu] at hu
                cases hu
                rw [← hwu]
                exact hs
              · rw [if_neg hwu] at hu
                exact absurd hu (by simp [lookupDup])
          rcases ih h2 hc' with ⟨hds, hc2, hmono, hmem⟩
          have hg : gradF fuel cost w = g := by
            rw [gradF, hs]
            rfl
          refine ⟨?_, hc2, ?_, ?_⟩
          · dsimp only
            rw [hds, List.map_cons, hg]
          · intro u e hu
            exact hmono _ _ (lookupDup_append_some hu)
          · intro u hu
            rcases List.mem_cons.mp hu with rfl | hu
            · rw [hg]
              refine hmono _ _ ?_
              rw [lookupDup_append_none hlk, lookupDup, if_pos rfl]
            · exact hmem u hu

end Network

namespace Network

open Func

/-- Applying the delta list `ws.map δ` with distinct weight indices adds
`δ w` to slot `w` for every weight and leaves every other slot
untouched. -/
lemma applyDeltas_spec (δ : ℕ → ℝ) : ∀ {ws : List ℕ} {state s2 : List ℝ},
    applyDeltas state ws (ws.map δ) = some s2 → ws.Nodup →
    ∀ idx, idx < state.length →
      s2.getD idx 0 = if idx ∈ ws then state.getD idx 0 + δ idx
        else state.getD idx 0 := by
  intro ws
  induction ws with
  | nil =>
    intro state s2 h _ idx hidx
    rw [List.map_nil, applyDeltas] at h
    cases h
    simp
  | cons w ws ih =>
    intro state s2 h hnd idx hidx
    rw [List.map_cons, applyDeltas] at h
    rcases List.nodup_cons.mp hnd with ⟨hwmem, hnd'⟩
    by_cases hw : w < state.length
    · rw [dif_pos hw] at h
      have hlen : (state.set w (state.get ⟨w, hw⟩ + δ w)).length = state.length :=
        List.length_set state w _
      have := ih h hnd' idx (by rwa [hlen])
      by_cases hiw : idx = w
      · subst hiw
        rw [this, if_neg hwmem, if_pos (List.mem_cons_self idx ws)]
        rw [List.getD_eq_getElem _ _ (by rwa [hlen] : idx < (state.set idx _).length),
          List.getElem_set_self, List.get_eq_getElem,
          List.getD_eq_getElem _ _ hidx]
      · have hne : idx ∈ w :: ws ↔ idx ∈ ws := by
          constructor
          · intro hm
            rcases List.mem_cons.mp hm with rfl | hm
            · exact absurd rfl hiw
            · exact hm
          · exact fun hm => List.mem_cons_of_mem w hm
        rw [this]
        have hset : (state.set w (state.get ⟨w, hw⟩ + δ w)).getD idx 0
            = state.getD idx 0 := by
          simp [List.getD_eq_getElem?_getD, List.getElem?_set_ne (Ne.symm hiw)]
        rw [hset]
        by_cases him : idx ∈ ws
        · rw [if_pos him, if_pos (hne.mpr him)]
        · rw [if_neg him, if_neg (fun hm => him (hne.mp hm))]
    · rw [dif_neg hw] at h
      exact absurd h (by simp)

/-- The spec-modelled synchronous update, slot by slot. -/
lemma syncUpdate_getD (lr : ℝ) (grad : ℕ → Func) (ws : List ℕ) (state1 : List ℝ) :
    (syncUpdate lr grad ws state1).length = state1.length ∧
    ∀ idx, idx < state1.length →
      (syncUpdate lr grad ws state1).getD idx 0 =
        if idx ∈ ws then state1.getD idx 0 + (-lr * Val state1 (grad idx))
        else state1.getD idx 0 := by
  have hlen : (syncUpdate lr grad ws state1).length = state1.length := by
    unfold syncUpdate
    exact List.length_mapIdx
  refine ⟨hlen, ?_⟩
  intro idx hidx
  rw [List.getD_eq_getElem _ _ (by rwa [hlen] : idx < (syncUpdate lr grad ws state1).length)]
  by_cases him : idx ∈ ws
  · rw [if_pos him, List.getD_eq_getElem _ _ hidx]
    unfold syncUpdate
    simp only [List.getElem_mapIdx, if_pos him]
  · rw [if_neg him, List.getD_eq_getElem _ _ hidx]
    unfold syncUpdate
    simp only [List.getElem_mapIdx, if_neg him]

/-- C4: the training-point loop body of `Train` performs exactly the
synchronous per-point update of the spec: after the point's input values
are written (`state1`), every weight's delta is `-learnRate` times the
value at `state1` of the cached simplified gradient
`simplify(partial(cost, w))`, and all deltas land simultaneously — the
new state is the spec-modelled `syncUpdate`, in which every gradient is
evaluated against `state1`, never against a partially updated state; the
cache holds exactly the simplified symbolic gradients. -/
theorem trainPoint_sync {fuel : ℕ} {cost : Func} {lr : ℝ} {vars ws : List ℕ}
    {state : List ℝ} {derivs : List (ℕ × Func)} {pos : List ℝ}
    {state1 : List ℝ} {out : List ℝ × List (ℕ × Func)}
    (h : trainPoint fuel cost lr vars ws state derivs pos = some out)
    (h1 : writeVars state vars pos = some state1)
    (hnd : ws.Nodup) (hc : cacheOK fuel cost derivs) :
    out.1 = syncUpdate lr (gradF fuel cost) ws state1 ∧
    (∀ w, w ∈ ws →
      lookupDup out.2 w = some (gradF fuel cost w) ∧
      simplifyF fuel (Partial w cost) = some (gradF fuel cost w)) := by
  rw [trainPoint, h1] at h
  simp only [Option.some_bind] at h
  by_cases he : ws.isEmpty
  · rw [if_pos he] at h
    exact absurd h (by simp)
  · rw [if_neg he] at h
    cases h2 : computeDeltas fuel cost lr state1 ws derivs with
    | none => rw [h2] at h; exact absurd h (by simp)
    | some p =>
      rw [h2] at h
      simp only [Option.some_bind] at h
      cases h3 : applyDeltas state1 ws p.1 with
      | none => rw [h3] at h; exact absurd h (by simp)
      | some s2 =>
        rw [h3] at h
        simp only [Option.map_some'] at h
        cases h
        rcases computeDeltas_spec h2 hc with ⟨hds, hc2, _, hmem⟩
        constructor
        · rw [hds] at h3
          have δspec := applyDeltas_spec
            (fun w => -lr * Val state1 (gradF fuel cost w)) h3 hnd
          rcases syncUpdate_getD lr (gradF fuel cost) ws state1 with ⟨hslen, hsget⟩
          have hs2len : s2.length = state1.length := applyDeltas_length h3
          apply List.ext_getElem (by rw [hs2len, hslen])
          intro idx hi1 hi2
          have hidx : idx < state1.length := by rwa [hs2len] at hi1
          rw [← List.getD_eq_getElem s2 0 hi1, ← List.getD_eq_getElem _ 0 hi2,
            δspec idx hidx, hsget idx hidx]
        · intro w hw
          have hsome : simplifyF fuel (Partial w cost) = some (gradF fuel cost w) := by
            have := hmem w hw
            have h4 := hc2 _ _ this
            exact h4
          exact ⟨hmem w hw, hsome⟩

end Network

/-! ## Remaining structural lemmas used by the claims -/

namespace Func

lemma val_Branch (x : List ℝ) (b : List ℝ → Func) :
    Val x (.Branch b) = Val x (b x) := rfl

/-- A factor that simplifies to `Constant(0)` forces the first
`Mult.Simplify` loop into its early whole-product-zero return. -/
lemma multGather_zero {S : Func → Option Func} :
    ∀ {l : List Func} {res : Option (List Func)} {f : Func},
      f ∈ l → S f = some (.Constant 0) → multGather S l = some res →
      res = none := by
  intro l
  induction l with
  | nil => intro res f hf _ _; exact absurd hf (List.not_mem_nil f)
  | cons g gs ih =>
    intro res f hf hSf h
    rw [multGather] at h
    cases hSg : S g with
    | none => rw [hSg] at h; exact absurd h (by simp)
    | some simple =>
      rw [hSg] at h
      simp only [Option.some_bind] at h
      by_cases hc0 : isC0 simple
      · rw [if_pos hc0] at h
        cases h
        rfl
      · rw [if_neg hc0] at h
        have hfgs : f ∈ gs := by
          rcases List.mem_cons.mp hf with rfl | hf
          · rw [hSf] at hSg
            cases hSg
            exact absurd (by simp : isC0 (Constant 0)) hc0
          · exact hf
        by_cases hc1 : isC1 simple
        · rw [if_pos hc1] at h
          exact ih hfgs hSf h
        · rw [if_neg hc1] at h
          cases hsimple : simple with
          | Mult inner =>
            rw [hsimple] at h
            dsimp only at h
            cases hmap : mapSimp S inner with
            | none => rw [hmap] at h; exact absurd h (by simp)
            | some inner2 =>
              rw [hmap] at h
              simp only [Option.some_bind] at h
              cases hrec : multGather S gs with
              | none => rw [hrec] at h; exact absurd h (by simp)
              | some res0 =>
                rw [hrec] at h
                simp only [Option.map_some'] at h
                cases h
                rw [ih hfgs hSf hrec]
                rfl
          | _ =>
            all_goals (
              rw [hsimple] at h
              dsimp only at h
              cases hrec : multGather S gs with
              | none => rw [hrec] at h; exact absurd h (by simp)
              | some res0 =>
                rw [hrec] at h
                simp only [Option.map_some'] at h
                cases h
                rw [ih hfgs hSf hrec]
                rfl)

end Func

/-! ## Claims -/

open Func

/-- C1 counterexample: `e = Mult{Variable(0), Pow{Variable(0), Constant(-1)}}`
at the point `[0]` is Go-defined — the evaluator's zero short-circuit
returns `0` at the first factor without touching the `0^(-1)` co-factor —
but simplification merges the powers into `v0^0` and folds it to a
product of ones, whose value is `1 ≠ 0`.  So simplification does not
preserve the evaluated value at every point at which the expression
evaluates without an IEEE special value. -/
theorem C1_counterexample :
    GoDefined [0] (.Mult [.Variable 0, .Pow (.Variable 0) (.Constant (-1))]) ∧
    simplifyF 10 (.Mult [.Variable 0, .Pow (.Variable 0) (.Constant (-1))])
      = some (.Mult [.Constant 1, .Constant 1]) ∧
    Val [0] (.Mult [.Constant 1, .Constant 1])
      ≠ Val [0] (.Mult [.Variable 0, .Pow (.Variable 0) (.Constant (-1))]) := by
  refine ⟨?_, ?_, ?_⟩
  · simp [GoDefined, GoDefined.goMultD, Val]
  · norm_num [simplifyF, sumNonzero, sumMerge, mapSimp, multGather, multMerge,
      simpDups, lookupDup, setDup]
  · rw [val_Mult, val_Mult]
    norm_num [Val]

/-- C1 (amended): for every expression `e`, every fuel for which
`Simplify` terminates, and every point at which every subexpression of
`e` is defined (strong definedness — the product zero short-circuit is
not relied upon to mask an undefined co-factor), the simplified
expression has exactly the value of `e`. -/
theorem C1_simplify_preserves_value {n : ℕ} {x : List ℝ} {e r : Func}
    (h : simplifyF n e = some r) (hd : SDefined x e) :
    Val x r = Val x e :=
  (simplify_ok n x e r h hd).2

/-- Witness for C1 at `e = Sum{Constant(2), Constant(3)}`, point `[]`. -/
theorem C1_witness :
    simplifyF 2 (.Sum [.Constant 2, .Constant 3]) = some (.Constant 5) ∧
    SDefined [] (.Sum [.Constant 2, .Constant 3]) ∧
    Val [] (.Constant 5) = Val [] (.Sum [.Constant 2, .Constant 3]) := by
  have hs : simplifyF 2 (.Sum [.Constant 2, .Constant 3]) = some (.Constant 5) := by
    norm_num [simplifyF, sumNonzero, sumMerge]
  have hd : SDefined [] (.Sum [.Constant 2, .Constant 3]) := by
    simp [SDefined, SDefined.goList]
  exact ⟨hs, hd, C1_simplify_preserves_value hs hd⟩

/-- C6 counterexample: for
`e = Pow{Variable(0), Mult{Variable(1), Pow{Variable(1), Constant(-1)}}}`,
one simplification yields `Pow{v0, Mult{1, 1}}` (the exponent's power
merge leaves a product of ones, which is not a `Constant`, so the
`Pow` does not collapse), which renders as `"(v0^1)"`; a second
simplification folds the exponent to `Constant(1)` and collapses the
`Pow` to its base, rendering as `"v0"`.  The two renderings differ, so
one `Simplify` is not render-stable. -/
theorem C6_counterexample :
    simplifyF 10 (.Pow (.Variable 0) (.Mult [.Variable 1, .Pow (.Variable 1) (.Constant (-1))]))
      = some (.Pow (.Variable 0) (.Mult [.Constant 1, .Constant 1])) ∧
    simplifyF 10 (.Pow (.Variable 0) (.Mult [.Constant 1, .Constant 1]))
      = some (.Variable 0) ∧
    strF ratStr 4 (.Pow (.Variable 0) (.Mult [.Constant 1, .Constant 1]))
      = some "(v0^1)" ∧
    strF ratStr 1 (.Variable 0) = some "v0" ∧
    ("(v0^1)" : String) ≠ "v0" := by
  refine ⟨?_, ?_, ?_, ?_, by decide⟩
  · norm_num [simplifyF, sumNonzero, sumMerge, mapSimp, multGather, multMerge,
      simpDups, lookupDup, setDup]
  · norm_num [simplifyF, sumNonzero, sumMerge, mapSimp, multGather, multMerge,
      simpDups, lookupDup, setDup]
  · norm_num [strF, simplifyF, sumNonzero, sumMerge, mapSimp, multGather,
      multMerge, simpDups, lookupDup, setDup, joinStrs, ratStr]
    decide
  · norm_num [strF]
    decide

/-- C6 (amended): a second simplification is value-stable even where it is
not render-stable: at every strongly defined point, `simplify(simplify e)`
has the same value as `simplify e`. -/
theorem C6_simplify_value_stable {n m : ℕ} {x : List ℝ} {e r1 r2 : Func}
    (h1 : simplifyF n e = some r1) (h2 : simplifyF m r1 = some r2)
    (hd : SDefined x e) :
    Val x r2 = Val x r1 :=
  (simplify_ok m x r1 r2 h2 (simplify_ok n x e r1 h1 hd).1).2

/-- Witness for C6 at `e = Sum{Constant(2), Constant(3)}`, point `[]`. -/
theorem C6_witness :
    simplifyF 2 (.Sum [.Constant 2, .Constant 3]) = some (.Constant 5) ∧
    simplifyF 1 (.Constant 5) = some (.Constant 5) ∧
    SDefined [] (.Sum [.Constant 2, .Constant 3]) ∧
    Val [] (.Constant 5) = Val [] (.Constant 5) := by
  have hs : simplifyF 2 (.Sum [.Constant 2, .Constant 3]) = some (.Constant 5) := by
    norm_num [simplifyF, sumNonzero, sumMerge]
  have hs2 : simplifyF 1 (.Constant 5) = some (.Constant 5) := by
    norm_num [simplifyF]
  have hd : SDefined [] (.Sum [.Constant 2, .Constant 3]) := by
    simp [SDefined, SDefined.goList]
  exact ⟨hs, hs2, hd, C6_simplify_value_stable hs hs2 hd⟩

/-- C7: a `Sum` of zero terms simplifies to `Constant(0)`; a `Mult` of
zero factors simplifies to `Constant(1)`; and a `Mult` any of whose
factors simplifies to `Constant(0)` simplifies entirely to `Constant(0)`
whatever the other factors are. -/
theorem C7_identity_annihilator :
    (∀ n : ℕ, simplifyF (n+1) (.Sum []) = some (.Constant 0)) ∧
    (∀ n : ℕ, simplifyF (n+1) (.Mult []) = some (.Constant 1)) ∧
    (∀ (n : ℕ) (l : List Func) (f r : Func), f ∈ l →
      simplifyF n f = some (.Constant 0) →
      simplifyF (n+1) (.Mult l) = some r → r = .Constant 0) := by
  refine ⟨?_, ?_, ?_⟩
  · intro n
    norm_num [simplifyF, sumNonzero, sumMerge]
  · intro n
    norm_num [simplifyF, multGather, multMerge, simpDups]
  · intro n l f r hf hf0 h
    rw [simplifyF] at h
    cases hg : multGather (simplifyF n) l with
    | none => rw [hg] at h; exact absurd h (by simp)
    | some res =>
      rw [hg] at h
      simp only [Option.some_bind] at h
      rw [multGather_zero hf hf0 hg] at h
      cases h
      rfl

/-- Witness for C7: fuel 1 for the empty cases, and
`Mult{Constant(0), Variable(1)}` for the annihilator case. -/
theorem C7_witness :
    simplifyF 1 (.Sum []) = some (.Constant 0) ∧
    simplifyF 1 (.Mult []) = some (.Constant 1) ∧
    ((Func.Constant 0) ∈ ([.Constant 0, .Variable 1] : List Func) ∧
      simplifyF 1 (.Constant 0) = some (.Constant 0) ∧
      simplifyF 2 (.Mult [.Constant 0, .Variable 1]) = some (.Constant 0)) := by
  obtain ⟨h1, h2, h3⟩ := C7_identity_annihilator
  have hmem : (Func.Constant 0) ∈ ([.Constant 0, .Variable 1] : List Func) :=
    List.mem_cons_self _ _
  have hc0 : simplifyF 1 (.Constant 0) = some (.Constant 0) := by
    norm_num [simplifyF]
  have hr : simplifyF 2 (.Mult [.Constant 0, .Variable 1]) = some (.Constant 0) := by
    norm_num [simplifyF, multGather, multMerge, simpDups]
  have := h3 1 [.Constant 0, .Variable 1] (.Constant 0) (.Constant 0) hmem hc0 hr
  exact ⟨h1 0, h2 0, hmem, hc0, hr⟩

/-- C8 counterexample: simplifying
`Mult{Pow{v0, 2}, Pow{v0, 3}}` does merge the exponents but yields
`Mult{Constant(1), Pow{v0, 5}}` — `Mult.Simplify` unconditionally
appends the folded constant factor (`1`) — not the single factor
`Pow{v0, 5}` the claim states. -/
theorem C8_counterexample :
    simplifyF 10 (.Mult [.Pow (.Variable 0) (.Constant 2), .Pow (.Variable 0) (.Constant 3)])
      = some (.Mult [.Constant 1, .Pow (.Variable 0) (.Constant 5)]) ∧
    simplifyF 10 (.Sum [.Constant 2, .Constant 3]) = some (.Constant 5) ∧
    (Func.Mult [.Constant 1, .Pow (.Variable 0) (.Constant 5)]
      ≠ .Pow (.Variable 0) (.Constant 5)) := by
  refine ⟨?_, ?_, fun h => Func.noConfusion h⟩
  · norm_num [simplifyF, sumNonzero, sumMerge, mapSimp, multGather, multMerge,
      simpDups, lookupDup, setDup]
  · norm_num [simplifyF, sumNonzero, sumMerge]

/-- C8 (amended): for constant exponents `a`, `b` with `a`, `b`, `a+b`
all different from 0 and 1, simplifying `Mult{Pow{x, a}, Pow{x, b}}`
over the same base variable merges the powers into the single `Pow`
factor `Pow{x, a+b}`, accompanied by the unconditionally-appended merged
constant factor `Constant(1)`:
the result is `Mult{Constant(1), Pow{x, Constant(a+b)}}`. -/
theorem C8_pow_merge (n : ℕ) (i : ℕ) (a b : ℚ)
    (ha0 : a ≠ 0) (ha1 : a ≠ 1) (hb0 : b ≠ 0) (hb1 : b ≠ 1)
    (hab0 : a + b ≠ 0) (hab1 : a + b ≠ 1) :
    simplifyF (n+3)
        (.Mult [.Pow (.Variable i) (.Constant a), .Pow (.Variable i) (.Constant b)])
      = some (.Mult [.Constant 1, .Pow (.Variable i) (.Constant (a+b))]) := by
  norm_num [simplifyF, sumNonzero, sumMerge, mapSimp, multGather, multMerge,
    simpDups, lookupDup, setDup, ha0, ha1, hb0, hb1, hab0, hab1]

/-- Witness for C8 with `a = 2`, `b = 3`. -/
theorem C8_witness :
    simplifyF 3 (.Mult [.Pow (.Variable 0) (.Constant 2), .Pow (.Variable 0) (.Constant 3)])
      = some (.Mult [.Constant 1, .Pow (.Variable 0) (.Constant 5)]) := by
  have h := C8_pow_merge 0 0 2 3 (by norm_num) (by norm_num) (by norm_num)
    (by norm_num) (by norm_num) (by norm_num)
  norm_num at h
  exact h

/-- C2: end-to-end scenario 2 — for
`e = Sum{Mult{Pow{v0, 2}, v1}, Pow{v1, 2}, Constant(7)}` at the point
`[2, 3]`: `value(e) = 4*3 + 9 + 7 = 28`, `value(partial(e, 0)) = 2*2*3 = 12`
and `value(partial(e, 1)) = 2^2 + 2*3 = 10`. -/
theorem C2_scenario2 :
    Val [2, 3] (.Sum [.Mult [.Pow (.Variable 0) (.Constant 2), .Variable 1],
      .Pow (.Variable 1) (.Constant 2), .Constant 7]) = 28 ∧
    Val [2, 3] (Partial 0 (.Sum [.Mult [.Pow (.Variable 0) (.Constant 2), .Variable 1],
      .Pow (.Variable 1) (.Constant 2), .Constant 7])) = 12 ∧
    Val [2, 3] (Partial 1 (.Sum [.Mult [.Pow (.Variable 0) (.Constant 2), .Variable 1],
      .Pow (.Variable 1) (.Constant 2), .Constant 7])) = 10 := by
  have h22 : (2:ℝ) ^ ((2:ℚ):ℝ) = 4 := by
    rw [show ((2:ℚ):ℝ) = ((2:ℕ):ℝ) by norm_num, Real.rpow_natCast]
    norm_num
  have h2m1 : (2:ℝ) ^ (((-1):ℚ):ℝ) = 1/2 := by
    rw [show (((-1):ℚ):ℝ) = (((-1):ℤ):ℝ) by norm_num, Real.rpow_intCast]
    norm_num
  have h32 : (3:ℝ) ^ ((2:ℚ):ℝ) = 9 := by
    rw [show ((2:ℚ):ℝ) = ((2:ℕ):ℝ) by norm_num, Real.rpow_natCast]
    norm_num
  have h3m1 : (3:ℝ) ^ (((-1):ℚ):ℝ) = 1/3 := by
    rw [show (((-1):ℚ):ℝ) = (((-1):ℤ):ℝ) by norm_num, Real.rpow_intCast]
    norm_num
  refine ⟨?_, ?_, ?_⟩ <;>
    norm_num [Partial, Partial.goSum, Partial.goMult, Inverse,
      val_Sum, val_Mult, val_Pow, val_Variable, val_Constant, List.getD,
      h22, h2m1, h32, h3m1]

/-- C3: `AbsoluteValue(Variable(0))` evaluated and differentiated at the
point `[5]` gives value `5` and derivative `1`, and at `[-5]` gives value
`5` and derivative `-1` — the sign predicate captured inside the `Branch`
closure is re-evaluated at the point where the derivative is evaluated,
not at differentiation time. -/
theorem C3_abs_discontinuous_derivative :
    Val [5] (Abs (.Variable 0)) = 5 ∧
    Val [5] (Partial 0 (Abs (.Variable 0))) = 1 ∧
    Val [-5] (Abs (.Variable 0)) = 5 ∧
    Val [-5] (Partial 0 (Abs (.Variable 0))) = -1 := by
  refine ⟨?_, ?_, ?_, ?_⟩ <;>
    norm_num [Abs, Negative, Partial, Partial.goSum, Partial.goMult, val_Branch,
      val_Sum, val_Mult, val_Pow, val_Variable, val_Constant, List.getD]

/-- C5: a `Branch` evaluates to exactly the value of the expression its
predicate selects at the evaluation point; the result is independent of
what the closure returns anywhere else (two branch closures agreeing at
`x` evaluate equally at `x`, whatever the unselected alternative is —
even an expression undefined at `x`); and the `Branch` is defined at `x`
as soon as the selected expression is. -/
theorem C5_branch_selects (b b2 : List ℝ → Func) (x : List ℝ) :
    Val x (.Branch b) = Val x (b x) ∧
    (b2 x = b x → Val x (.Branch b2) = Val x (.Branch b)) ∧
    (SDefined x (b x) → SDefined x (.Branch b)) :=
  ⟨rfl, fun h => by rw [val_Branch, val_Branch, h], fun h => h⟩

/-- Witness for C5: at the point `[5]` a sign-guarded branch whose
unselected alternative is `Ln(Constant(-1))` (undefined there) evaluates
exactly as the branch that always returns the selected `Constant(1)`. -/
theorem C5_witness :
    ((fun p : List ℝ => if 0 ≤ p.getD 0 0 then (.Constant 1 : Func)
        else .Ln (.Constant (-1))) [5] = (fun _ : List ℝ => (.Constant 1 : Func)) [5]) ∧
    Val [5] (.Branch (fun p => if 0 ≤ p.getD 0 0 then (.Constant 1 : Func)
        else .Ln (.Constant (-1))))
      = Val [5] (.Branch (fun _ : List ℝ => (.Constant 1 : Func))) := by
  have heq : (fun p : List ℝ => if 0 ≤ p.getD 0 0 then (.Constant 1 : Func)
      else .Ln (.Constant (-1))) [5] = (fun _ : List ℝ => (.Constant 1 : Func)) [5] := by
    norm_num [List.getD]
  exact ⟨heq, (C5_branch_selects _ _ [5]).2.1 heq⟩

/-- Witness for C4 (`Network.trainPoint_sync`): one weight (variable 1),
one input variable (variable 0), cost `Variable(1)`, state `[0, 5]`,
training point `[2]`: the point is written giving pre-update state
`[2, 5]`, the cached simplified gradient is `Constant(1)`, and the
resulting state `[2, 4]` is exactly the spec-modelled synchronous
update. -/
theorem C4_witness :
    Network.trainPoint 2 (.Variable 1) 1 [0] [1] [0, 5] [] [2]
      = some ([2, 4], [(1, .Constant 1)]) ∧
    Network.writeVars [0, 5] [0] [2] = some [2, 5] ∧
    ([2, 4] : List ℝ) = syncUpdate 1 (gradF 2 (.Variable 1)) [1] [2, 5] := by
  have h1 : Network.writeVars [0, 5] [0] [2] = some [2, 5] := by
    norm_num [Network.writeVars]
  have h : Network.trainPoint 2 (.Variable 1) 1 [0] [1] [0, 5] [] [2]
      = some ([2, 4], [(1, .Constant 1)]) := by
    norm_num [Network.trainPoint, Network.writeVars, Network.computeDeltas,
      Network.applyDeltas, lookupDup, simplifyF, Partial, val_Constant, Val]
  have hnd : ([1] : List ℕ).Nodup := by simp
  have hc : cacheOK 2 (.Variable 1) [] := by
    intro w g hg
    simp [lookupDup] at hg
  exact ⟨h, h1, (Network.trainPoint_sync h h1 hnd hc).1⟩

/-- C9 counterexample: calling `Train` with an empty training set on a
network whose state vector has not yet been allocated does mutate state —
it allocates the state vector (length `NVars`) and initializes the weight
slot to 1 — so the state vector is not "exactly the same after the call
as before" in the unallocated case. -/
theorem C9_counterexample :
    Network.Train 1 ⟨1, [], [0], .Constant 0, [], []⟩ (1/2) []
      = some ⟨1, [], [0], .Constant 0, [1], []⟩ ∧
    (⟨1, [], [0], .Constant 0, [1], []⟩ : Network).State
      ≠ (⟨1, [], [0], .Constant 0, [], []⟩ : Network).State := by
  constructor
  · norm_num [Network.Train, Network.setWeights, Network.trainLoop, Network.NVars]
  · simp

/-- C9 (amended): `train` on an empty training-point set performs no
weight updates and is not an error; if the state vector is already
allocated the network is returned wholly unchanged, and if it is
unallocated the only mutation is the allocation itself — a state vector
of length `NVars()` with every weight slot set to 1. -/
theorem C9_train_empty (fuel : ℕ) (n : Network) (lr : ℝ) :
    (n.State.length ≠ 0 → Network.Train fuel n lr [] = some n) ∧
    (n.State.length = 0 →
      Network.Train fuel n lr [] =
        (Network.setWeights (List.replicate n.NVars 0) n.Weights).map
          (fun s => { n with State := s })) := by
  constructor
  · intro hne
    simp only [Network.Train, if_neg hne, Option.some_bind, Network.trainLoop,
      Option.map_some']
  · intro hz
    simp only [Network.Train, if_pos hz, Network.trainLoop]
    cases hsw : Network.setWeights (List.replicate n.NVars 0) n.Weights with
    | none => rfl
    | some s => rfl

/-- Witness for C9 on a network with an already-allocated state
vector. -/
theorem C9_witness :
    ((⟨1, [], [0], .Constant 0, [0], []⟩ : Network).State.length ≠ 0) ∧
    Network.Train 1 ⟨1, [], [0], .Constant 0, [0], []⟩ (1/2) []
      = some ⟨1, [], [0], .Constant 0, [0], []⟩ := by
  have hne : (⟨1, [], [0], .Constant 0, [0], []⟩ : Network).State.length ≠ 0 := by
    simp
  exact ⟨hne, (C9_train_empty 1 ⟨1, [], [0], .Constant 0, [0], []⟩ (1/2)).1 hne⟩

/-- C10 counterexample: `Train` does not establish
`len(State) = NVars()` for every network — when the state vector was
already (mis)allocated at a different length, `Train` keeps that length
(it only allocates when the state vector is empty). -/
theorem C10_counterexample :
    Network.Train 1 ⟨1, [], [], .Constant 0, [5, 6], []⟩ 1 []
      = some ⟨1, [], [], .Constant 0, [5, 6], []⟩ ∧
    (⟨1, [], [], .Constant 0, [5, 6], []⟩ : Network).State.length
      ≠ (⟨1, [], [], .Constant 0, [5, 6], []⟩ : Network).NVars := by
  constructor
  · norm_num [Network.Train, Network.trainLoop]
  · simp [Network.NVars]

/-- C10 (amended): a successful `Train` mutates only the state vector —
the declared input variables, the trainable weights, the cost expression,
the output-node list and the next-free variable index are unchanged — and
the resulting state vector has length `NVars()` whenever the state was
unallocated at call time, and its previous length otherwise. -/
theorem C10_train_frame {fuel : ℕ} {n : Network} {lr : ℝ}
    {pts : List (List ℝ)} {n2 : Network}
    (h : Network.Train fuel n lr pts = some n2) :
    n2.Vars = n.Vars ∧ n2.Weights = n.Weights ∧ n2.CostFunc = n.CostFunc ∧
    n2.Outputs = n.Outputs ∧ n2.nextVarIndex = n.nextVarIndex ∧
    n2.State.length = (if n.State.length = 0 then n.NVars else n.State.length) := by
  rw [Network.Train] at h
  by_cases hz : n.State.length = 0
  · rw [if_pos hz] at h
    cases hsw : Network.setWeights (List.replicate n.NVars 0) n.Weights with
    | none => rw [hsw] at h; exact absurd h (by simp)
    | some s0 =>
      rw [hsw] at h
      simp only [Option.some_bind] at h
      cases hloop : Network.trainLoop fuel n.CostFunc lr n.Vars n.Weights s0 [] pts with
      | none => rw [hloop] at h; exact absurd h (by simp)
      | some sF =>
        rw [hloop] at h
        simp only [Option.map_some'] at h
        cases h
        refine ⟨rfl, rfl, rfl, rfl, rfl, ?_⟩
        rw [if_pos hz, Network.trainLoop_length hloop, Network.setWeights_length hsw,
          List.length_replicate]
  · rw [if_neg hz] at h
    simp only [Option.some_bind] at h
    cases hloop : Network.trainLoop fuel n.CostFunc lr n.Vars n.Weights n.State [] pts with
    | none => rw [hloop] at h; exact absurd h (by simp)
    | some sF =>
      rw [hloop] at h
      simp only [Option.map_some'] at h
      cases h
      exact ⟨rfl, rfl, rfl, rfl, rfl, by rw [if_neg hz, Network.trainLoop_length hloop]⟩

/-- Witness for C10 on a concrete successful `Train` run. -/
theorem C10_witness :
    Network.Train 1 ⟨1, [], [0], .Constant 0, [0], []⟩ (1/2) []
      = some ⟨1, [], [0], .Constant 0, [0], []⟩ ∧
    (⟨1, [], [0], .Constant 0, [0], []⟩ : Network).State.length
      = (if (⟨1, [], [0], .Constant 0, [0], []⟩ : Network).State.length = 0
         then (⟨1, [], [0], .Constant 0, [0], []⟩ : Network).NVars
         else (⟨1, [], [0], .Constant 0, [0], []⟩ : Network).State.length) := by
  have h : Network.Train 1 ⟨1, [], [0], .Constant 0, [0], []⟩ (1/2) []
      = some ⟨1, [], [0], .Constant 0, [0], []⟩ := by
    norm_num [Network.Train, Network.trainLoop]
  exact ⟨h, (C10_train_frame h).2.2.2.2.2⟩
